import Mathlib

/-!
# tschema — verification of the type-to-schema resolution engine

Shallow embedding of `src/index.ts`: a resolver that turns named TypeScript
type-alias declarations into JSON Schema fragments.

Modelling conventions:
* The TypeScript AST nodes used by the program are embedded as the inductive
  `TypeExpr`; the JSON Schema subset produced is the inductive `Schema`, a
  record of optional fields (absent field = `none`, mirroring an absent JS
  object property).
* The global mutable memo table `resolved` is threaded explicitly as the
  state `St`; thrown JS errors become the `DErr` error monad (`Except`).
* The mutual recursion `resolve`/`getTypeDefinition` is not structurally
  terminating (`type A = A` loops), so both functions take a fuel parameter
  that every recursive step decrements; running out of fuel yields
  `DErr.outOfFuel`, the model of the source's unbounded recursion.
* JSDoc tag merging (`{...x, ...jsdocTag}`) is orthogonal to every property
  verified here and is modelled with `jsdocTag = {}` throughout, under which
  each spread is the identity on the structural fields.  Where the spread's
  shallow-copy semantics matters (cache aliasing), a separate heap-level
  model is used; the pure model here works with schema values.
* `typeChecker` (the semantic type oracle) is an external collaborator and
  is modelled as a function `TypeExpr → SemType` carried in the environment;
  `isSameType` is transcribed from the source.
* Numeric literal payloads (`+t.literal.text`) are modelled as `Int`.
-/

namespace TSchema

/-- A JSON literal value, as stored in `enum` arrays. -/
inductive JVal where
  | str (s : String)
  | num (n : Int)
deriving DecidableEq

/-- Payload of a TypeScript `LiteralTypeNode` (`t.literal`): the program
handles string and numeric literals; a boolean literal type falls through
every branch of `getTypeDefinition` to the final `unsupported node` throw. -/
inductive TLit where
  | str (s : String)
  | num (n : Int)
  | boolLit (b : Bool)
deriving DecidableEq

/-- The TypeScript type-expression AST fragment consumed by
`getTypeDefinition` (`src/index.ts`).  An object-literal member is
`(name, hasQuestionToken, type)`; only property signatures are modelled,
matching the source's `members.filter(ts.isPropertySignature)`.
`typeReference` carries `none` when `t.typeArguments == null` and
`some args` otherwise. -/
inductive TypeExpr where
  | stringKeyword
  | numberKeyword
  | booleanKeyword
  | nullKeyword
  | undefinedKeyword
  | typeLiteral (members : List (String × Bool × TypeExpr))
  | arrayType (elem : TypeExpr)
  | typeReference (name : String) (targs : Option (List TypeExpr))
  | literalType (l : TLit)
  | unionType (types : List TypeExpr)
  | intersectionType (types : List TypeExpr)
  | keyofType (target : TypeExpr)
  | conditionalType (check ext tb fb : TypeExpr)

/-- The `JSONSchema7` subset produced by the program: fields
`type`, `properties`, `required`, `items`, `enum`, `oneOf`, `allOf`,
`anyOf`, `format`, in that order.  `none` models an absent JS field. -/
inductive Schema where
  | mk : Option String → Option (List (String × Schema)) →
         Option (List String) → Option Schema → Option (List JVal) →
         Option (List Schema) → Option (List Schema) → Option (List Schema) →
         Option String → Schema

/-- The `type` field. -/
def Schema.jtype : Schema → Option String
  | .mk t _ _ _ _ _ _ _ _ => t

/-- The `properties` field. -/
def Schema.props : Schema → Option (List (String × Schema))
  | .mk _ p _ _ _ _ _ _ _ => p

/-- The `required` field. -/
def Schema.req : Schema → Option (List String)
  | .mk _ _ r _ _ _ _ _ _ => r

/-- The `items` field. -/
def Schema.items : Schema → Option Schema
  | .mk _ _ _ i _ _ _ _ _ => i

/-- The `enum` field. -/
def Schema.jenum : Schema → Option (List JVal)
  | .mk _ _ _ _ e _ _ _ _ => e

/-- The `oneOf` field. -/
def Schema.oneOfC : Schema → Option (List Schema)
  | .mk _ _ _ _ _ o _ _ _ => o

/-- The `allOf` field. -/
def Schema.allOfC : Schema → Option (List Schema)
  | .mk _ _ _ _ _ _ a _ _ => a

/-- The `anyOf` field. -/
def Schema.anyOfC : Schema → Option (List Schema)
  | .mk _ _ _ _ _ _ _ y _ => y

/-- The `format` field. -/
def Schema.fmt : Schema → Option String
  | .mk _ _ _ _ _ _ _ _ f => f

/-- `{}` — the empty schema object (what `{...undefined, ...jsdocTag}`
produces with no tags). -/
def Schema.emptyS : Schema := .mk none none none none none none none none none

/-- `{type: ty}`. -/
def typeSchema (ty : String) : Schema :=
  .mk (some ty) none none none none none none none none

/-- `{type:"object", properties: ps, required: r}`. -/
def objSchema (ps : List (String × Schema)) (r : List String) : Schema :=
  .mk (some "object") (some ps) (some r) none none none none none none

/-- `{type:"array", items: s}`. -/
def arraySchema (s : Schema) : Schema :=
  .mk (some "array") none none (some s) none none none none none

/-- `{enum: vs}`. -/
def enumSchema (vs : List JVal) : Schema :=
  .mk none none none none (some vs) none none none none

/-- `{oneOf: cs}`. -/
def oneOfSchema (cs : List Schema) : Schema :=
  .mk none none none none none (some cs) none none none

/-- `{allOf: cs}`. -/
def allOfSchema (cs : List Schema) : Schema :=
  .mk none none none none none none (some cs) none none

/-- `{type: ty, format: f}` (the `Date`/`RegExp` aliases). -/
def fmtSchema (ty f : String) : Schema :=
  .mk (some ty) none none none none none none none (some f)

/-- Replace (or delete, with `none`) the `required` field — models
`delete s.required` and `s.required = ...`. -/
def Schema.withReq : Schema → Option (List String) → Schema
  | .mk t p _ i e o a y f, r => .mk t p r i e o a y f

/-- Replace the `allOf` field — models `{...def, allOf: ...}`. -/
def Schema.withAllOf : Schema → Option (List Schema) → Schema
  | .mk t p r i e o _ y f, a => .mk t p r i e o a y f

/-- The semantic type returned by the type-checker oracle
(`typeChecker.getTypeFromTypeNode`): category flags plus the canonical
printed form (`typeChecker.typeToString`). -/
structure SemType where
  flags : Nat
  printed : String
deriving DecidableEq

/-- `isSameType` (src/index.ts, lines 267-272): flags must match and the
printed forms must coincide exactly. -/
def isSameType (a b : SemType) : Bool :=
  a.flags == b.flags && a.printed == b.printed

/-- The engine's read-only environment: the Declaration Table built by
`scan` (`decls`) and the semantic type oracle (`typeChecker`). -/
structure Env where
  decls : List (String × TypeExpr)
  oracle : TypeExpr → SemType

/-- The Resolution Cache (`resolved`): newest entry first; a write is a
cons, a read is the first hit, matching JS property overwrite. -/
abbrev St := List (String × Schema)

/-- Failure outcomes of a derivation.  JS `throw new Error(...)` sites map
to named constructors; anonymous `TypeError`s raised by accessing fields of
`undefined` map to `jsError`; a JS function returning `undefined`
(the projection fall-through) maps to `undefinedResult`; exhausted fuel
models the source's unbounded recursion. -/
inductive DErr where
  | unknownDeclaration (name : String)
  | unsupportedNode
  | ambiguousConditional
  | keyOfNonObject
  | jsError
  | undefinedResult
  | outOfFuel
deriving DecidableEq

/-- Result of `resolve`/`getTypeDefinition`: a schema plus the updated
Resolution Cache. -/
abbrev Res := Except DErr (Schema × St)

/-- JS string coercion of an object key (`properties[k]` with a possibly
numeric `k`). -/
def keyStr : JVal → String
  | .str s => s
  | .num n => toString n

/-- One step of the object-literal `reduce`:
`{...acc, [name]: v}` — overwrite in place if the key exists (JS keeps the
original position), else append. -/
def upsertProp (acc : List (String × Schema)) (kv : String × Schema) :
    List (String × Schema) :=
  if acc.any (fun p => p.1 == kv.1) then
    acc.map (fun p => if p.1 == kv.1 then (p.1, kv.2) else p)
  else acc ++ [kv]

/-- The object-literal `properties` accumulator (src/index.ts lines 74-84). -/
def buildProps (l : List (String × Schema)) : List (String × Schema) :=
  l.foldl upsertProp []

/-- `t.types.filter(ts.isLiteralTypeNode).map(l => l.literal)`, fused:
the literal payload of a literal type node. -/
def litOf : TypeExpr → Option TLit
  | .literalType l => some l
  | _ => none

/-- `literals.filter(ts.isStringLiteral)`, fused: the string payload. -/
def strOfLit : TLit → Option String
  | .str s => some s
  | _ => none

/-- `literals.filter(ts.isNumericLiteral)`, fused: the numeric payload. -/
def numOfLit : TLit → Option Int
  | .num n => some n
  | _ => none

/-- The literal-union fast path of the union case (src/index.ts lines
206-222): if every alternative is a literal type node (the filtered list
has full length) and the literals are all strings (resp. all numerics),
produce the corresponding `enum` schema; otherwise fall through (`none`)
to the `oneOf` derivation. -/
def unionLiteralEnum (types : List TypeExpr) : Option Schema :=
  let lits := types.filterMap litOf
  if lits.length = types.length then
    let strs := lits.filterMap strOfLit
    if strs.length = lits.length then some (enumSchema (strs.map JVal.str))
    else
      let nums := lits.filterMap numOfLit
      if nums.length = lits.length then some (enumSchema (nums.map JVal.num))
      else none
  else none

mutual
/-- `pickProperties` (src/index.ts lines 274-304).  `keys?` is the raw
`pickKeys.enum as string[]` value, `none` when the `enum` field is absent.
In the object branch, `def.properties[p]` / `def.required.filter` on an
absent field raise a `TypeError` (`jsError`); the final fall-through
returns `undefined` (`undefinedResult`).  A picked key absent from
`properties` would bind the JS value `undefined`; the total representation
omits such keys (no verified property depends on that corner). -/
def pickProperties (s : Schema) (keys? : Option (List JVal)) :
    Except DErr Schema :=
  match s with
  | .mk t pr rq it en onf al an fm =>
    if t = some "object" then
      match keys?, pr, rq with
      | some keys, some ps, some r =>
        .ok (.mk t
          (some (keys.filterMap fun k =>
            (List.lookup (keyStr k) ps).map fun v => (keyStr k, v)))
          (some (r.filter fun x => keys.contains (JVal.str x)))
          it en onf al an fm)
      | _, _, _ => .error .jsError
    else
      match al with
      | some cs =>
        (pickList cs keys?).map fun cs' => .mk t pr rq it en onf (some cs') an fm
      | none =>
        match onf with
        | some cs =>
          (pickList cs keys?).map fun cs' =>
            .mk t pr rq it en onf (some cs') an fm
        | none =>
          match an with
          | some cs =>
            (pickList cs keys?).map fun cs' =>
              .mk t pr rq it en onf (some cs') an fm
          | none => .error .undefinedResult

/-- `def.allOf.map(x => pickProperties(x, keys))`, sequencing child
failures.  A child returning JS `undefined` is propagated as
`undefinedResult` rather than stored as an `undefined` array slot. -/
def pickList (cs : List Schema) (keys? : Option (List JVal)) :
    Except DErr (List Schema) :=
  match cs with
  | [] => .ok []
  | c :: rest =>
    match pickProperties c keys? with
    | .ok c' => (pickList rest keys?).map fun rest' => c' :: rest'
    | .error e => .error e
end

mutual
/-- `dropProperties` (src/index.ts lines 306-334).  The object branch
deletes the keys from `properties` (JS `delete` coerces the key to a
string) and filters `required` with `===` comparison against the raw key
values; combinator branches distribute and relabel as `allOf` exactly like
`pickProperties`. -/
def dropProperties (s : Schema) (keys? : Option (List JVal)) :
    Except DErr Schema :=
  match s with
  | .mk t pr rq it en onf al an fm =>
    if t = some "object" then
      match keys?, pr, rq with
      | some keys, some ps, some r =>
        .ok (.mk t
          (some (ps.filter fun kv => !(keys.map keyStr).contains kv.1))
          (some (r.filter fun x => !keys.contains (JVal.str x)))
          it en onf al an fm)
      | _, _, _ => .error .jsError
    else
      match al with
      | some cs =>
        (dropList cs keys?).map fun cs' => .mk t pr rq it en onf (some cs') an fm
      | none =>
        match onf with
        | some cs =>
          (dropList cs keys?).map fun cs' =>
            .mk t pr rq it en onf (some cs') an fm
        | none =>
          match an with
          | some cs =>
            (dropList cs keys?).map fun cs' =>
              .mk t pr rq it en onf (some cs') an fm
          | none => .error .undefinedResult

/-- `def.allOf.map(x => dropProperties(x, keys))`. -/
def dropList (cs : List Schema) (keys? : Option (List JVal)) :
    Except DErr (List Schema) :=
  match cs with
  | [] => .ok []
  | c :: rest =>
    match dropProperties c keys? with
    | .ok c' => (dropList rest keys?).map fun rest' => c' :: rest'
    | .error e => .error e
end

/-- Sequential derivation of a list of type expressions (the
`t.types.map(getTypeDefinition)` / member-by-member recursion),
threading the Resolution Cache left to right and propagating the first
failure, parameterized by the derivation function `drv`. -/
def deriveListAux (drv : TypeExpr → St → Res) :
    List TypeExpr → St → Except DErr (List Schema × St)
  | [], st => .ok ([], st)
  | t :: ts, st =>
    match drv t st with
    | .ok (s, st') =>
      match deriveListAux drv ts st' with
      | .ok (ss, st'') => .ok (s :: ss, st'')
      | .error e => .error e
    | .error e => .error e

/-- `resolve` (src/index.ts lines 31-40), with the recursive call into
`getTypeDefinition` abstracted as `drv`: consult the Resolution Cache
first; on a miss, consult the Declaration Table, derive the body, store
the result under `name`, and return it; fail with `unknownDeclaration`
when the name is absent from both. -/
def resolveAux (env : Env) (drv : TypeExpr → St → Res) (name : String)
    (st : St) : Res :=
  match List.lookup name st with
  | some s => .ok (s, st)
  | none =>
    match List.lookup name env.decls with
    | some body =>
      match drv body st with
      | .ok (s, st') => .ok (s, (name, s) :: st')
      | .error e => .error e
    | none => .error (.unknownDeclaration name)

/-- `getTypeDefinition` (src/index.ts lines 42-265), with the recursive
calls abstracted: `rsl` is `resolve`, `drv` the recursive
`getTypeDefinition`.  Branches appear in source order; the unrecognized
reference-with-type-arguments path (`default` with non-null
`typeArguments`, empty `else`) falls through every later `if` — the node
is still a reference node — and reaches the final
`throw new Error("unsupported node")`. -/
def deriveAux (env : Env) (rsl : String → St → Res)
    (drv : TypeExpr → St → Res) (t : TypeExpr) (st : St) : Res :=
  match t with
  | .stringKeyword => .ok (typeSchema "string", st)
  | .numberKeyword => .ok (typeSchema "number", st)
  | .booleanKeyword => .ok (typeSchema "boolean", st)
  | .nullKeyword => .ok (typeSchema "null", st)
  | .undefinedKeyword => .ok (typeSchema "null", st)
  | .typeLiteral members =>
    match deriveListAux drv (members.map fun m => m.2.2) st with
    | .ok (ss, st') =>
      .ok (objSchema (buildProps ((members.map fun m => m.1).zip ss))
             ((members.filter fun m => !m.2.1).map fun m => m.1), st')
    | .error e => .error e
  | .arrayType elem =>
    match drv elem st with
    | .ok (s, st') => .ok (arraySchema s, st')
    | .error e => .error e
  | .typeReference name targs =>
    match name with
    | "Array" =>
      match targs with
      | some (a :: _) =>
        match drv a st with
        | .ok (s, st') => .ok (arraySchema s, st')
        | .error e => .error e
      | _ => .error .jsError
    | "Partial" =>
      -- delete partialDef.required, then return a copy
      match targs with
      | some (a :: _) =>
        match drv a st with
        | .ok (s, st') => .ok (s.withReq none, st')
        | .error e => .error e
      | _ => .error .jsError
    | "Required" =>
      -- requiredDef.required = Object.keys(requiredDef.properties)
      match targs with
      | some (a :: _) =>
        match drv a st with
        | .ok (s, st') =>
          match s.props with
          | some ps => .ok (s.withReq (some (ps.map fun p => p.1)), st')
          | none => .error .jsError
        | .error e => .error e
      | _ => .error .jsError
    | "Readonly" =>
      match targs with
      | some (a :: _) => drv a st
      | _ => .error .jsError
    | "Pick" =>
      match targs with
      | some (a :: b :: _) =>
        match drv a st with
        | .ok (pickDef, st1) =>
          match drv b st1 with
          | .ok (pickKeys, st2) =>
            match pickProperties pickDef pickKeys.jenum with
            | .ok s => .ok (s, st2)
            | .error .undefinedResult => .ok (Schema.emptyS, st2)
            | .error e => .error e
          | .error e => .error e
        | .error e => .error e
      | _ => .error .jsError
    | "Record" =>
      -- recordKeys (an `enum` array, read lazily) then recordType are
      -- derived before the keys are iterated; absent `enum` only fails at
      -- the `recordKeys.forEach` after `recordType` is derived.
      match targs with
      | some (a :: b :: _) =>
        match drv a st with
        | .ok (kSchema, st1) =>
          match drv b st1 with
          | .ok (vSchema, st2) =>
            match kSchema.jenum with
            | some vs =>
              .ok (objSchema (vs.map fun k => (keyStr k, vSchema))
                     (vs.map keyStr), st2)
            | none => .error .jsError
          | .error e => .error e
        | .error e => .error e
      | _ => .error .jsError
    | "Exclude" =>
      match targs with
      | some (a :: _) => drv a st
      | _ => .error .jsError
    | "Extract" =>
      match targs with
      | some (_ :: b :: _) => drv b st
      | _ => .error .jsError
    | "Omit" =>
      match targs with
      | some (a :: b :: _) =>
        match drv a st with
        | .ok (omitDef, st1) =>
          match drv b st1 with
          | .ok (omitKeys, st2) =>
            match dropProperties omitDef omitKeys.jenum with
            | .ok s => .ok (s, st2)
            | .error .undefinedResult => .ok (Schema.emptyS, st2)
            | .error e => .error e
          | .error e => .error e
        | .error e => .error e
      | _ => .error .jsError
    | "Date" => .ok (fmtSchema "string" "time", st)
    | "RegExp" => .ok (fmtSchema "string" "regex", st)
    | _ =>
      match targs with
      | none => rsl name st
      | some _ => .error .unsupportedNode
  | .literalType l =>
    match l with
    | .str s => .ok (enumSchema [.str s], st)
    | .num n => .ok (enumSchema [.num n], st)
    | .boolLit _ => .error .unsupportedNode
  | .unionType types =>
    match unionLiteralEnum types with
    | some s => .ok (s, st)
    | none =>
      match deriveListAux drv types st with
      | .ok (ss, st') => .ok (oneOfSchema ss, st')
      | .error e => .error e
  | .intersectionType types =>
    match deriveListAux drv types st with
    | .ok (ss, st') => .ok (allOfSchema ss, st')
    | .error e => .error e
  | .keyofType target =>
    -- Object.keys(arg.properties): a TypeError when `properties` is
    -- absent, i.e. when the target does not derive to an object schema;
    -- the spec names this failure KeyOfNonObject.
    match drv target st with
    | .ok (arg, st') =>
      match arg.props with
      | some ps => .ok (enumSchema (ps.map fun p => JVal.str p.1), st')
      | none => .error .keyOfNonObject
    | .error e => .error e
  | .conditionalType check ext tb fb =>
    if isSameType (env.oracle tb) (env.oracle fb) then
      .error .ambiguousConditional
    else if isSameType (env.oracle (.conditionalType check ext tb fb))
              (env.oracle tb) then
      drv tb st
    else drv fb st

mutual
/-- Fueled `resolve`: each recursion step into the engine consumes one
unit of fuel; fuel 0 on a path the source would keep recursing on yields
`outOfFuel` (the model of the unguarded `type A = A` divergence). -/
def resolve (env : Env) : Nat → String → St → Res
  | 0, _, _ => .error .outOfFuel
  | f + 1, name, st => resolveAux env (derive env f) name st

/-- Fueled `getTypeDefinition`. -/
def derive (env : Env) : Nat → TypeExpr → St → Res
  | 0, _, _ => .error .outOfFuel
  | f + 1, t, st => deriveAux env (resolve env f) (derive env f) t st
end

/-!
## Heap-level model of cache aliasing

The pure model above works with schema values, which cannot express the
JS object identity that the Omit/Partial operators interact with: the
named-reference default case returns `{...resolve(name), ...jsdocTag}`, a
*shallow* copy whose `properties` field still points at the cached
schema's properties object, and `dropProperties` mutates that shared
object in place (`delete def.properties[p]`) while `Partial`'s
`delete partialDef.required` removes a field of the fresh copy only.

`HeapM` embeds exactly the fragment of `resolve` / `getTypeDefinition` /
`dropProperties` whose aliasing the frame-effect claim is about, at the
level of a JS object heap: schema values are addresses of objects, an
object is an insertion-ordered field map, arrays of names are immutable
values (the code only ever replaces `required` arrays, never mutates
them).  Type-expression kinds not reachable in that fragment answer
`notModelled`; the pure model remains the embedding of the full dispatch.
-/

namespace HeapM

/-- A JS value stored in an object field: a string, an array of strings
(`required` / `enum` arrays), or a reference to a heap object. -/
inductive HVal where
  | vstr (s : String)
  | vlist (ss : List String)
  | vref (a : Nat)
deriving DecidableEq

/-- A JS object: ordered association list of fields. -/
abbrev HObj := List (String × HVal)

/-- The object heap; an address is an index, allocation appends. -/
abbrev Heap := List HObj

/-- Field read `o[k]`. -/
def objGet (o : HObj) (k : String) : Option HVal := List.lookup k o

/-- Field write `o[k] = v`: JS keeps the original field position on
overwrite and appends a fresh key. -/
def objSet (o : HObj) (k : String) (v : HVal) : HObj :=
  if o.any (fun p => p.1 == k) then
    o.map (fun p => if p.1 == k then (k, v) else p)
  else o ++ [(k, v)]

/-- `delete o[k]`. -/
def objDel (o : HObj) (k : String) : HObj := o.filter (fun p => p.1 != k)

/-- Allocate a fresh object, returning the extended heap and its address. -/
def alloc (h : Heap) (o : HObj) : Heap × Nat := (h ++ [o], h.length)

/-- Dereference an address. -/
def readObj (h : Heap) (a : Nat) : Option HObj := h[a]?

/-- Overwrite the object at an address (in-place mutation). -/
def writeObj (h : Heap) (a : Nat) (o : HObj) : Heap := h.set a o

/-- The Resolution Cache at heap level: name to address of the cached
schema object (`resolved[name]` holds an object reference). -/
abbrev Cache := List (String × Nat)

/-- Heap-model failures: `notModelled` marks source behavior outside the
fragment this model covers. -/
inductive HErr where
  | notModelled
  | jsError
  | unknownDeclaration (name : String)
  | outOfFuel
deriving DecidableEq

/-- Heap-model results: address of the produced schema object, plus the
updated heap and cache. -/
abbrev HRes := Except HErr (Nat × Heap × Cache)

/-- Keys of an all-string-literal union (`"a" | "b"`), the only key shape
the aliasing scenario needs for Omit's second argument. -/
def allStringLits : List TypeExpr → Option (List String)
  | [] => some []
  | .literalType (.str s) :: ts => (allStringLits ts).map (s :: ·)
  | _ => none

/-- Heap-level `dropProperties`, object branch (src/index.ts lines
306-315): mutate the properties object *in place* (it is reached through
the `vref` shared with the cached schema), then return a fresh object
spreading `def` with a freshly filtered `required` array.  The combinator
branches are not needed for the aliasing claim. -/
def dropPropertiesH (h : Heap) (c : Cache) (a : Nat)
    (keys? : Option (List String)) : HRes :=
  match readObj h a with
  | some o =>
    if objGet o "type" = some (.vstr "object") then
      match keys? with
      | some keys =>
        match objGet o "properties" with
        | some (.vref p) =>
          match readObj h p with
          | some po =>
            let h1 := writeObj h p (keys.foldl objDel po)
            match objGet o "required" with
            | some (.vlist r) =>
              let (h2, res) := alloc h1
                (objSet o "required" (.vlist (r.filter fun x => !keys.contains x)))
              .ok (res, h2, c)
            | _ => .error .jsError
          | none => .error .jsError
        | _ => .error .jsError
      | none => .error .jsError
    else .error .notModelled
  | none => .error .jsError

/-- Sequentially derive object-literal members at heap level, returning
the member name / schema address pairs in declaration order. -/
def deriveMembersH (drv : TypeExpr → Heap → Cache → HRes) :
    List (String × Bool × TypeExpr) → Heap → Cache →
    Except HErr (List (String × Nat) × Heap × Cache)
  | [], h, c => .ok ([], h, c)
  | m :: ms, h, c =>
    match drv m.2.2 h c with
    | .ok (a, h1, c1) =>
      match deriveMembersH drv ms h1 c1 with
      | .ok (ps, h2, c2) => .ok ((m.1, a) :: ps, h2, c2)
      | .error e => .error e
    | .error e => .error e

/-- Heap-level `resolve` step: a cache hit returns the cached *address*
unchanged; a miss derives the body and stores the returned address. -/
def resolveHAux (decls : List (String × TypeExpr))
    (drv : TypeExpr → Heap → Cache → HRes) (name : String) (h : Heap)
    (c : Cache) : HRes :=
  match List.lookup name c with
  | some a => .ok (a, h, c)
  | none =>
    match List.lookup name decls with
    | some body =>
      match drv body h c with
      | .ok (a, h', c') => .ok (a, h', (name, a) :: c')
      | .error e => .error e
    | none => .error (.unknownDeclaration name)

/-- Heap-level `getTypeDefinition` on the fragment the aliasing claim
exercises: primitives, object literals, string-literal unions (Omit
keys), and the `Partial` / `Omit` / bare-named-reference branches.  The
bare-reference default case is the crucial one: `{...resolve(name)}`
allocates a *shallow* copy — the field list is copied verbatim, so the
`properties` reference is shared with the cached object. -/
def deriveHAux (rsl : String → Heap → Cache → HRes)
    (drv : TypeExpr → Heap → Cache → HRes) (t : TypeExpr) (h : Heap)
    (c : Cache) : HRes :=
  match t with
  | .stringKeyword =>
    let (h', a) := alloc h [("type", .vstr "string")]
    .ok (a, h', c)
  | .numberKeyword =>
    let (h', a) := alloc h [("type", .vstr "number")]
    .ok (a, h', c)
  | .typeLiteral members =>
    match deriveMembersH drv members h c with
    | .ok (ps, h1, c1) =>
      let (h2, p) := alloc h1
        (ps.foldl (fun acc kv => objSet acc kv.1 (.vref kv.2)) [])
      let req := (members.filter fun m => !m.2.1).map fun m => m.1
      let (h3, a) := alloc h2
        [("type", .vstr "object"), ("properties", .vref p),
         ("required", .vlist req)]
      .ok (a, h3, c1)
    | .error e => .error e
  | .literalType (.str s) =>
    let (h', a) := alloc h [("enum", .vlist [s])]
    .ok (a, h', c)
  | .unionType types =>
    match allStringLits types with
    | some ss =>
      let (h', a) := alloc h [("enum", .vlist ss)]
      .ok (a, h', c)
    | none => .error .notModelled
  | .typeReference name targs =>
    match name with
    | "Partial" =>
      match targs with
      | some (arg :: _) =>
        match drv arg h c with
        | .ok (a, h1, c1) =>
          match readObj h1 a with
          | some o =>
            -- delete partialDef.required — mutates the object at `a`
            let h2 := writeObj h1 a (objDel o "required")
            -- return {...partialDef}: another shallow copy
            match readObj h2 a with
            | some o2 =>
              let (h3, r) := alloc h2 o2
              .ok (r, h3, c1)
            | none => .error .jsError
          | none => .error .jsError
        | .error e => .error e
      | _ => .error .jsError
    | "Omit" =>
      match targs with
      | some (argT :: argK :: _) =>
        match drv argT h c with
        | .ok (a, h1, c1) =>
          match drv argK h1 c1 with
          | .ok (k, h2, c2) =>
            match readObj h2 k with
            | some ko =>
              dropPropertiesH h2 c2 a
                (match objGet ko "enum" with
                 | some (.vlist ss) => some ss
                 | _ => none)
            | none => .error .jsError
          | .error e => .error e
        | .error e => .error e
      | _ => .error .jsError
    | _ =>
      match targs with
      | none =>
        -- return {...resolve(name)}: shallow copy of the cached object
        match rsl name h c with
        | .ok (a, h1, c1) =>
          match readObj h1 a with
          | some o =>
            let (h2, r) := alloc h1 o
            .ok (r, h2, c1)
          | none => .error .jsError
        | .error e => .error e
      | some _ => .error .notModelled
  | _ => .error .notModelled

mutual
/-- Fueled heap-level `resolve`. -/
def resolveH (decls : List (String × TypeExpr)) :
    Nat → String → Heap → Cache → HRes
  | 0, _, _, _ => .error .outOfFuel
  | f + 1, name, h, c => resolveHAux decls (deriveH decls f) name h c

/-- Fueled heap-level `getTypeDefinition` fragment. -/
def deriveH (decls : List (String × TypeExpr)) :
    Nat → TypeExpr → Heap → Cache → HRes
  | 0, _, _, _ => .error .outOfFuel
  | f + 1, t, h, c => deriveHAux (resolveH decls f) (deriveH decls f) t h c
end

/-- The concrete Declaration Table used by closed instances:
`type T = {a: string; b: number}`. -/
def declsT : List (String × TypeExpr) :=
  [("T", .typeLiteral [("a", false, .stringKeyword), ("b", false, .numberKeyword)])]

/-- The heap produced by a first `resolve("T")` run from empty state. -/
def heapT : Heap :=
  match resolveH declsT 5 "T" [] [] with
  | .ok (_, h, _) => h
  | .error _ => []

/-- The cache produced by a first `resolve("T")` run from empty state. -/
def cacheT : Cache :=
  match resolveH declsT 5 "T" [] [] with
  | .ok (_, _, c) => c
  | .error _ => []

/-- Heap and cache after additionally deriving `Partial<T>` (with `T`
already resolved into the cache). -/
def afterPartialT : Heap × Cache :=
  match deriveH declsT 9
      (.typeReference "Partial" (some [.typeReference "T" none])) heapT cacheT with
  | .ok (_, h, c) => (h, c)
  | .error _ => ([], [])

end HeapM

/-- The value of a string-literal type alternative, used to state the
all-string union rule. -/
def strLitVal : TypeExpr → Option String
  | .literalType (.str s) => some s
  | _ => none

/-- The value of a numeric-literal type alternative. -/
def numLitVal : TypeExpr → Option Int
  | .literalType (.num n) => some n
  | _ => none

/-- The spec's structural invariant on produced schemas (§3): a schema
carries a `properties` map exactly when it is an object schema
(`type:"object"`). -/
def SchemaInv (s : Schema) : Prop := s.props.isSome ↔ s.jtype = some "object"

/-- Every schema stored in the Resolution Cache satisfies `SchemaInv`. -/
def CacheInv (st : St) : Prop := ∀ q ∈ st, SchemaInv q.2

/-- An environment with an empty Declaration Table and an arbitrary
oracle, for closed instances that need neither. -/
def envNil : Env := ⟨[], fun _ => ⟨0, ""⟩⟩

/-- An environment declaring `type T = {a: string; b: number}`. -/
def envT : Env :=
  ⟨[("T", .typeLiteral [("a", false, .stringKeyword),
                        ("b", false, .numberKeyword)])],
   fun _ => ⟨0, ""⟩⟩

/-- The schema `resolve("T")` derives under `envT`. -/
def sT : Schema :=
  objSchema [("a", typeSchema "string"), ("b", typeSchema "number")] ["a", "b"]

/-- An environment whose oracle assigns the semantic type `string` to the
string keyword and to every conditional node, and `number` to everything
else — it makes a conditional with a `string` true branch resolve to that
branch. -/
def envCond : Env :=
  ⟨[], fun e =>
    match e with
    | .stringKeyword => ⟨1, "string"⟩
    | .conditionalType _ _ _ _ => ⟨1, "string"⟩
    | _ => ⟨2, "number"⟩⟩

/-! ## Helper lemmas -/

theorem Schema.req_withReq (s : Schema) (o : Option (List String)) :
    (s.withReq o).req = o := by
  cases s; rfl

theorem Schema.props_withReq (s : Schema) (o : Option (List String)) :
    (s.withReq o).props = s.props := by
  cases s; rfl

theorem Schema.jtype_withReq (s : Schema) (o : Option (List String)) :
    (s.withReq o).jtype = s.jtype := by
  cases s; rfl

theorem lookup_cons_self {β : Type} (a : String) (b : β)
    (l : List (String × β)) : List.lookup a ((a, b) :: l) = some b := by
  simp [List.lookup]

theorem lookup_mem {β : Type} {a : String} {b : β} {l : List (String × β)}
    (h : List.lookup a l = some b) : (a, b) ∈ l := by
  induction l with
  | nil => simp [List.lookup] at h
  | cons q l ih =>
    obtain ⟨k, v⟩ := q
    by_cases hk : a = k
    · subst hk
      simp only [List.lookup, beq_self_eq_true] at h
      cases h
      exact List.mem_cons_self _ _
    · have hb : (a == k) = false := by simp [hk]
      simp only [List.lookup, hb] at h
      exact List.mem_cons_of_mem _ (ih h)

/-- Unfolding step for the fueled `resolve`. -/
theorem resolve_succ (env : Env) (f : Nat) (name : String) (st : St) :
    resolve env (f+1) name st = resolveAux env (derive env f) name st := rfl

/-- Unfolding step for the fueled `derive`. -/
theorem derive_succ (env : Env) (f : Nat) (t : TypeExpr) (st : St) :
    derive env (f+1) t st =
      deriveAux env (resolve env f) (derive env f) t st := rfl

/-! ## Claims -/

/-- C1: `resolve` first consults the Resolution Cache and, on a hit,
returns the cached schema unchanged — independently of the Declaration
Table, the oracle and the remaining fuel, so no derivation happens.  On a
miss it fails with `unknownDeclaration name` when `name` is not declared,
and otherwise computes `derive` on the body, stores the result under
`name`, and returns it.  Consequently a successful `resolve` is
idempotent: the second call returns the structurally identical schema and
leaves the state untouched (it is served from cache). -/
theorem resolve_cache_contract (env env' : Env) (f g : Nat) (name : String)
    (st : St) :
    (∀ s, List.lookup name st = some s →
       resolve env (f+1) name st = .ok (s, st) ∧
       resolve env (f+1) name st = resolve env' (g+1) name st) ∧
    (List.lookup name st = none → List.lookup name env.decls = none →
       resolve env (f+1) name st = .error (.unknownDeclaration name)) ∧
    (∀ body, List.lookup name st = none →
       List.lookup name env.decls = some body →
       resolve env (f+1) name st =
         (match derive env f body st with
          | .ok (s, st') => .ok (s, (name, s) :: st')
          | .error e => .error e)) ∧
    (∀ s st', resolve env f name st = .ok (s, st') →
       resolve env (g+1) name st' = .ok (s, st')) := by
  refine ⟨fun s hs => ?_, fun h1 h2 => ?_, fun body h1 h2 => ?_,
    fun s st' h => ?_⟩
  · constructor
    · rw [resolve_succ]; unfold resolveAux; rw [hs]
    · rw [resolve_succ, resolve_succ]; unfold resolveAux; rw [hs]
  · rw [resolve_succ]; unfold resolveAux; rw [h1, h2]
  · rw [resolve_succ]; unfold resolveAux; rw [h1, h2]
  · cases f with
    | zero => exact absurd h (by simp [resolve])
    | succ f' =>
      rw [resolve_succ] at h
      unfold resolveAux at h
      rw [resolve_succ]
      unfold resolveAux
      cases hl : List.lookup name st with
      | some s0 =>
        simp only [hl, Except.ok.injEq, Prod.mk.injEq] at h
        obtain ⟨hs0, hst⟩ := h
        subst hs0; subst hst
        simp only [hl]
      | none =>
        simp only [hl] at h
        cases hd : List.lookup name env.decls with
        | none => simp only [hd] at h; exact absurd h (by simp)
        | some body =>
          simp only [hd] at h
          cases hdr : derive env f' body st with
          | error e => simp only [hdr] at h; exact absurd h (by simp)
          | ok p =>
            obtain ⟨s0, st2⟩ := p
            simp only [hdr, Except.ok.injEq, Prod.mk.injEq] at h
            obtain ⟨hs0, hst⟩ := h
            subst hs0
            rw [← hst]
            simp only [lookup_cons_self]

/-- Witness for C1: under `envT` (`type T = {a: string; b: number}`),
a hit returns the cached value unchanged, a missing name fails with
`unknownDeclaration`, a miss derives and stores `sT`, and a second call
after a successful one returns the identical schema and state. -/
theorem resolve_cache_contract_witness :
    resolve envT 3 "T" [("T", typeSchema "string")] =
      .ok (typeSchema "string", [("T", typeSchema "string")]) ∧
    resolve envT 3 "Missing" [] = .error (.unknownDeclaration "Missing") ∧
    resolve envT 3 "T" [] = .ok (sT, [("T", sT)]) ∧
    resolve envT 4 "T" [("T", sT)] = .ok (sT, [("T", sT)]) :=
  ⟨((resolve_cache_contract envT envT 2 2 "T"
      [("T", typeSchema "string")]).1 (typeSchema "string") rfl).1,
   (resolve_cache_contract envT envT 2 2 "Missing" []).2.1 rfl rfl,
   ((resolve_cache_contract envT envT 2 2 "T" []).2.2.1 _ rfl rfl).trans rfl,
   (resolve_cache_contract envT envT 3 3 "T" [("T", sT)]).2.2.2 sT
     [("T", sT)] rfl⟩

/-- C2: on a conditional type, if the oracle's semantic types of the two
branches are equal, `derive` fails with `ambiguousConditional`; otherwise
it derives the true branch when the conditional's own semantic type
equals the true branch's, and the false branch otherwise; and two
semantic types are `isSameType`-equal iff their category flags match and
their canonical printed forms match exactly. -/
theorem conditional_branch_selection (env : Env) (f : Nat)
    (ck ex tb fb : TypeExpr) (st : St) :
    (isSameType (env.oracle tb) (env.oracle fb) = true →
       derive env (f+1) (.conditionalType ck ex tb fb) st =
         .error .ambiguousConditional) ∧
    (isSameType (env.oracle tb) (env.oracle fb) = false →
     isSameType (env.oracle (.conditionalType ck ex tb fb))
         (env.oracle tb) = true →
       derive env (f+1) (.conditionalType ck ex tb fb) st =
         derive env f tb st) ∧
    (isSameType (env.oracle tb) (env.oracle fb) = false →
     isSameType (env.oracle (.conditionalType ck ex tb fb))
         (env.oracle tb) = false →
       derive env (f+1) (.conditionalType ck ex tb fb) st =
         derive env f fb st) ∧
    (∀ a b : SemType,
       isSameType a b = true ↔ a.flags = b.flags ∧ a.printed = b.printed) := by
  have hstep : derive env (f+1) (.conditionalType ck ex tb fb) st =
      (if isSameType (env.oracle tb) (env.oracle fb) then
         .error .ambiguousConditional
       else if isSameType (env.oracle (.conditionalType ck ex tb fb))
                 (env.oracle tb) then derive env f tb st
       else derive env f fb st) := rfl
  refine ⟨fun h1 => ?_, fun h1 h2 => ?_, fun h1 h2 => ?_, fun a b => ?_⟩
  · rw [hstep]; simp [h1]
  · rw [hstep]; simp [h1, h2]
  · rw [hstep]; simp [h1, h2]
  · simp [isSameType, Bool.and_eq_true, beq_iff_eq]

/-- Witness for C2: under `envCond`'s oracle, a conditional with `string`
true branch and `number` false branch resolves to its true branch's
derivation; swapping the branches makes it resolve to the (now false)
`string` branch; and a conditional whose branches are both `string` is
ambiguous. -/
theorem conditional_branch_selection_witness :
    derive envCond 2 (.conditionalType .nullKeyword .nullKeyword
        .stringKeyword .numberKeyword) [] =
      derive envCond 1 .stringKeyword [] ∧
    derive envCond 2 (.conditionalType .nullKeyword .nullKeyword
        .numberKeyword .stringKeyword) [] =
      derive envCond 1 .stringKeyword [] ∧
    derive envCond 2 (.conditionalType .nullKeyword .nullKeyword
        .stringKeyword .stringKeyword) [] =
      .error .ambiguousConditional :=
  ⟨(conditional_branch_selection envCond 1 .nullKeyword .nullKeyword
      .stringKeyword .numberKeyword []).2.1 rfl rfl,
   (conditional_branch_selection envCond 1 .nullKeyword .nullKeyword
      .numberKeyword .stringKeyword []).2.2.1 rfl rfl,
   (conditional_branch_selection envCond 1 .nullKeyword .nullKeyword
      .stringKeyword .stringKeyword []).1 rfl⟩

/-- C6 counterexample: deriving a named reference that carries type
arguments and is not a recognized operator is *not* a silent no-op — the
empty `else` falls through the remaining dispatch (the node is still a
reference node) into the final `throw new Error("unsupported node")`,
modelled as `DErr.unsupportedNode`. -/
theorem generic_reference_counterexample :
    derive envNil 1 (.typeReference "Foo" (some [.stringKeyword])) [] =
      .error .unsupportedNode := rfl

/-- C6 (amended): for every named reference carrying type arguments whose
name is not one of the recognized operators, `derive` fails with the
generic unsupported-node error (the fall-through throw), rather than
silently producing no schema. -/
theorem generic_reference_unsupported (env : Env) (f : Nat) (name : String)
    (targs : List TypeExpr) (st : St)
    (h : name ∉ ["Array", "Partial", "Required", "Readonly", "Pick",
                 "Record", "Exclude", "Extract", "Omit", "Date", "RegExp"]) :
    derive env (f+1) (.typeReference name (some targs)) st =
      .error .unsupportedNode := by
  rw [derive_succ]
  unfold deriveAux
  split
  any_goals simp_all
  rename_i heq
  obtain ⟨h1, h2⟩ := heq
  subst h2
  rfl

/-- Witness for C6's amended theorem at the concrete name `"Foo"`. -/
theorem generic_reference_unsupported_witness :
    derive envNil 1 (.typeReference "Foo" (some [.numberKeyword])) [] =
      .error .unsupportedNode :=
  generic_reference_unsupported envNil 0 "Foo" [.numberKeyword] [] (by decide)

/-- C9: `derive(Partial<T>)` is `derive(T)` with the `required` field
deleted, and a successful result never carries a `required` field. -/
theorem partialRef_drops_required (env : Env) (f : Nat) (a : TypeExpr)
    (st : St) :
    derive env (f+1) (.typeReference "Partial" (some [a])) st =
      (match derive env f a st with
       | .ok (s, st') => .ok (s.withReq none, st')
       | .error e => .error e) ∧
    (∀ r rst,
       derive env (f+1) (.typeReference "Partial" (some [a])) st =
         .ok (r, rst) → r.req = none) := by
  refine ⟨rfl, fun r rst h => ?_⟩
  rw [show derive env (f+1) (.typeReference "Partial" (some [a])) st =
        (match derive env f a st with
         | .ok (s, st') => .ok (s.withReq none, st')
         | .error e => .error e) from rfl] at h
  cases hd : derive env f a st with
  | ok p =>
    obtain ⟨s0, st0⟩ := p
    rw [hd] at h
    simp only [Except.ok.injEq, Prod.mk.injEq] at h
    rw [← h.1, Schema.req_withReq]
  | error e => rw [hd] at h; simp at h

/-- Witness for C9 at `Partial<{a: string}>`. -/
theorem partialRef_drops_required_witness :
    ((objSchema [("a", typeSchema "string")] ["a"]).withReq none).req =
      none :=
  (partialRef_drops_required envNil 2
      (.typeLiteral [("a", false, .stringKeyword)]) []).2
    ((objSchema [("a", typeSchema "string")] ["a"]).withReq none) [] rfl

/-- C10: `derive(Exclude<T,U>)` returns `derive(T)` unchanged and
`derive(Extract<T,U>)` returns `derive(U)` unchanged — degenerate
approximations performing no set difference or intersection. -/
theorem exclude_extract_degenerate (env : Env) (f : Nat) (a b : TypeExpr)
    (st : St) :
    derive env (f+1) (.typeReference "Exclude" (some [a, b])) st =
      derive env f a st ∧
    derive env (f+1) (.typeReference "Extract" (some [a, b])) st =
      derive env f b st :=
  ⟨rfl, rfl⟩

theorem map_fst_zip_take {α β : Type} (l1 : List α) (l2 : List β) :
    (l1.zip l2).map Prod.fst = l1.take l2.length := by
  induction l1 generalizing l2 with
  | nil => simp
  | cons a l1 ih =>
    cases l2 with
    | nil => simp
    | cons b l2 => simp [ih]

theorem any_key_eq_false {k : String} {acc : List (String × Schema)}
    (h : ∀ p ∈ acc, p.1 ≠ k) : (acc.any fun p => p.1 == k) = false := by
  rw [Bool.eq_false_iff]
  intro hc
  rw [List.any_eq_true] at hc
  obtain ⟨p, hp, hpk⟩ := hc
  exact h p hp (by simpa using hpk)

theorem foldl_upsertProp_append (l : List (String × Schema))
    (acc : List (String × Schema)) (hnd : (l.map Prod.fst).Nodup)
    (hdisj : ∀ p ∈ acc, p.1 ∉ l.map Prod.fst) :
    l.foldl upsertProp acc = acc ++ l := by
  induction l generalizing acc with
  | nil => simp
  | cons kv l ih =>
    have hnd' : (l.map Prod.fst).Nodup := by
      rw [List.map_cons] at hnd
      exact hnd.of_cons
    have hhead : kv.1 ∉ l.map Prod.fst := by
      rw [List.map_cons, List.nodup_cons] at hnd
      exact hnd.1
    have hk : (acc.any fun p => p.1 == kv.1) = false := by
      apply any_key_eq_false
      intro p hp hpe
      exact hdisj p hp (by simp [hpe])
    have hstep : upsertProp acc kv = acc ++ [kv] := by
      rw [upsertProp, hk]; simp
    have hdisj' : ∀ p ∈ acc ++ [kv], p.1 ∉ l.map Prod.fst := by
      intro p hp
      rcases List.mem_append.mp hp with hacc | hkv
      · intro hmem
        exact hdisj p hacc (by simp [hmem])
      · rw [List.mem_singleton] at hkv
        subst hkv
        exact hhead
    rw [List.foldl_cons, hstep, ih (acc ++ [kv]) hnd' hdisj']
    simp

/-- A duplicate-free member list makes the object-literal `reduce` the
identity: `properties` lists exactly the members in declaration order. -/
theorem buildProps_of_nodupKeys (l : List (String × Schema))
    (h : (l.map Prod.fst).Nodup) : buildProps l = l := by
  have := foldl_upsertProp_append l [] h (by simp)
  simpa [buildProps] using this

/-- C4: deriving an object literal yields `type:"object"`, `properties`
mapping each member to its derivation (built by the `reduce`; with
duplicate-free names this is exactly the `(name, derivation)` list in
declaration order), and `required` listing exactly the members without
the optional marker, in declaration order; in particular
`{a: string, b?: number}` derives to
`{type:"object", properties:{a:{type:"string"}, b:{type:"number"}},
required:["a"]}`. -/
theorem object_literal_derivation (env : Env) (f : Nat)
    (members : List (String × Bool × TypeExpr)) (st : St) :
    (∀ ss st',
       deriveListAux (derive env f) (members.map fun m => m.2.2) st =
         .ok (ss, st') →
       derive env (f+1) (.typeLiteral members) st =
         .ok (objSchema (buildProps ((members.map fun m => m.1).zip ss))
                ((members.filter fun m => !m.2.1).map fun m => m.1), st') ∧
       ((members.map fun m => m.1).Nodup →
          buildProps ((members.map fun m => m.1).zip ss) =
            (members.map fun m => m.1).zip ss)) ∧
    derive envNil 3 (.typeLiteral
        [("a", false, .stringKeyword), ("b", true, .numberKeyword)]) [] =
      .ok (objSchema [("a", typeSchema "string"), ("b", typeSchema "number")]
             ["a"], []) := by
  refine ⟨fun ss st' h => ⟨?_, fun hnd => ?_⟩, ?_⟩
  · rw [derive_succ]
    unfold deriveAux
    simp only [h]
  · apply buildProps_of_nodupKeys
    rw [map_fst_zip_take]
    exact hnd.sublist (List.take_sublist _ _)
  · rfl

/-- Witness for C4 at `{a: string, b?: number}` with duplicate-free
member names. -/
theorem object_literal_derivation_witness :
    derive envNil 3 (.typeLiteral
        [("a", false, .stringKeyword), ("b", true, .numberKeyword)]) [] =
      .ok (objSchema
             (buildProps [("a", typeSchema "string"),
                          ("b", typeSchema "number")]) ["a"], []) ∧
    buildProps [("a", typeSchema "string"), ("b", typeSchema "number")] =
      [("a", typeSchema "string"), ("b", typeSchema "number")] :=
  ⟨((object_literal_derivation envNil 2
      [("a", false, .stringKeyword), ("b", true, .numberKeyword)] []).1
      [typeSchema "string", typeSchema "number"] [] rfl).1,
   ((object_literal_derivation envNil 2
      [("a", false, .stringKeyword), ("b", true, .numberKeyword)] []).1
      [typeSchema "string", typeSchema "number"] [] rfl).2 (by decide)⟩

theorem filterMap_length_eq_iff {α β : Type} (g : α → Option β)
    (l : List α) :
    (l.filterMap g).length = l.length ↔ ∀ a ∈ l, (g a).isSome := by
  induction l with
  | nil => simp
  | cons a l ih =>
    cases hga : g a with
    | some b => simp [List.filterMap_cons, hga, ih]
    | none =>
      simp only [List.filterMap_cons, hga, List.length_cons]
      constructor
      · intro h
        have := List.length_filterMap_le g l
        omega
      · intro h
        have := h a (List.mem_cons_self a l)
        simp [hga] at this

theorem unionLiteralEnum_all_str (types : List TypeExpr)
    (h : ∀ u ∈ types, ∃ s, u = .literalType (.str s)) :
    unionLiteralEnum types =
      some (enumSchema ((types.filterMap strLitVal).map JVal.str)) := by
  have hlit : ((types.filterMap litOf).length = types.length) := by
    rw [filterMap_length_eq_iff]
    intro u hu
    obtain ⟨s, rfl⟩ := h u hu
    simp [litOf]
  have hstr : (((types.filterMap litOf).filterMap strOfLit).length =
      (types.filterMap litOf).length) := by
    rw [filterMap_length_eq_iff]
    intro l hl
    rw [List.mem_filterMap] at hl
    obtain ⟨u, hu, hlu⟩ := hl
    obtain ⟨s, rfl⟩ := h u hu
    simp [litOf] at hlu
    subst hlu
    simp [strOfLit]
  have hcomp : (types.filterMap litOf).filterMap strOfLit =
      types.filterMap strLitVal := by
    rw [List.filterMap_filterMap]
    congr 1
    funext u
    cases u with
    | literalType l => cases l <;> rfl
    | _ => rfl
  have hstr' : (types.filterMap strLitVal).length = types.length := by
    rw [← hcomp, hstr, hlit]
  unfold unionLiteralEnum
  simp only [hcomp, hlit, if_true]
  rw [if_pos hstr']

theorem unionLiteralEnum_all_num (types : List TypeExpr)
    (h : ∀ u ∈ types, ∃ n, u = .literalType (.num n)) :
    unionLiteralEnum types =
      some (enumSchema ((types.filterMap numLitVal).map JVal.num)) := by
  have hlit : ((types.filterMap litOf).length = types.length) := by
    rw [filterMap_length_eq_iff]
    intro u hu
    obtain ⟨n, rfl⟩ := h u hu
    simp [litOf]
  have hnum : (((types.filterMap litOf).filterMap numOfLit).length =
      (types.filterMap litOf).length) := by
    rw [filterMap_length_eq_iff]
    intro l hl
    rw [List.mem_filterMap] at hl
    obtain ⟨u, hu, hlu⟩ := hl
    obtain ⟨n, rfl⟩ := h u hu
    simp [litOf] at hlu
    subst hlu
    simp [numOfLit]
  have hcomp : (types.filterMap litOf).filterMap numOfLit =
      types.filterMap numLitVal := by
    rw [List.filterMap_filterMap]
    congr 1
    funext u
    cases u with
    | literalType l => cases l <;> rfl
    | _ => rfl
  cases htypes : types with
  | nil => rfl
  | cons u0 rest =>
    rw [← htypes]
    have hne : ((types.filterMap litOf).filterMap strOfLit).length ≠
        (types.filterMap litOf).length := by
      have hnil : (types.filterMap litOf).filterMap strOfLit = [] := by
        rw [List.filterMap_eq_nil_iff]
        intro l hl
        rw [List.mem_filterMap] at hl
        obtain ⟨u, hu, hlu⟩ := hl
        obtain ⟨n, rfl⟩ := h u hu
        simp [litOf] at hlu
        subst hlu
        rfl
      rw [hnil, hlit, htypes]
      simp
    rw [hlit] at hne
    have hnum' : (types.filterMap numLitVal).length = types.length := by
      rw [← hcomp, hnum, hlit]
    unfold unionLiteralEnum
    simp only [hcomp, hlit, if_true]
    rw [if_neg hne, if_pos hnum']

theorem unionLiteralEnum_mixed (types : List TypeExpr)
    (h : (∃ u ∈ types, ∀ l, u ≠ .literalType l) ∨
         ((∀ u ∈ types, ∃ l, u = .literalType l) ∧
          ¬(∀ u ∈ types, ∃ s, u = .literalType (.str s)) ∧
          ¬(∀ u ∈ types, ∃ n, u = .literalType (.num n)))) :
    unionLiteralEnum types = none := by
  rcases h with ⟨u, hu, hnl⟩ | ⟨hall, hnstr, hnnum⟩
  · have hne : (types.filterMap litOf).length ≠ types.length := by
      rw [Ne, filterMap_length_eq_iff]
      intro hc
      have := hc u hu
      cases u with
      | literalType l => exact hnl l rfl
      | _ => simp [litOf] at this
    unfold unionLiteralEnum
    simp only [if_neg hne]
  · have hlit : ((types.filterMap litOf).length = types.length) := by
      rw [filterMap_length_eq_iff]
      intro u hu
      obtain ⟨l, rfl⟩ := hall u hu
      simp [litOf]
    have hnstr' : ((types.filterMap litOf).filterMap strOfLit).length ≠
        (types.filterMap litOf).length := by
      rw [Ne, filterMap_length_eq_iff]
      intro hc
      apply hnstr
      intro u hu
      obtain ⟨l, rfl⟩ := hall u hu
      have hmem : l ∈ types.filterMap litOf := by
        rw [List.mem_filterMap]
        exact ⟨.literalType l, hu, rfl⟩
      have := hc l hmem
      cases l with
      | str s => exact ⟨s, rfl⟩
      | num n => simp [strOfLit] at this
      | boolLit b => simp [strOfLit] at this
    have hnnum' : ((types.filterMap litOf).filterMap numOfLit).length ≠
        (types.filterMap litOf).length := by
      rw [Ne, filterMap_length_eq_iff]
      intro hc
      apply hnnum
      intro u hu
      obtain ⟨l, rfl⟩ := hall u hu
      have hmem : l ∈ types.filterMap litOf := by
        rw [List.mem_filterMap]
        exact ⟨.literalType l, hu, rfl⟩
      have := hc l hmem
      cases l with
      | str s => simp [numOfLit] at this
      | num n => exact ⟨n, rfl⟩
      | boolLit b => simp [numOfLit] at this
    rw [hlit] at hnstr' hnnum'
    unfold unionLiteralEnum
    simp only [hlit, if_true]
    rw [if_neg hnstr', if_neg hnnum']

/-- C5: a union whose alternatives are all string-literal types derives to
the `enum` of the literal string values in order; all numeric-literal
types, to the `enum` of numeric values; any non-literal alternative or
mixed literal kinds falls through to `{oneOf: [derive each alternative]}`. -/
theorem union_enum_derivation (env : Env) (f : Nat)
    (types : List TypeExpr) (st : St) :
    ((∀ u ∈ types, ∃ s, u = .literalType (.str s)) →
       derive env (f+1) (.unionType types) st =
         .ok (enumSchema ((types.filterMap strLitVal).map JVal.str), st)) ∧
    ((∀ u ∈ types, ∃ n, u = .literalType (.num n)) →
       derive env (f+1) (.unionType types) st =
         .ok (enumSchema ((types.filterMap numLitVal).map JVal.num), st)) ∧
    (((∃ u ∈ types, ∀ l, u ≠ .literalType l) ∨
      ((∀ u ∈ types, ∃ l, u = .literalType l) ∧
       ¬(∀ u ∈ types, ∃ s, u = .literalType (.str s)) ∧
       ¬(∀ u ∈ types, ∃ n, u = .literalType (.num n)))) →
       derive env (f+1) (.unionType types) st =
         (match deriveListAux (derive env f) types st with
          | .ok (ds, st') => .ok (oneOfSchema ds, st')
          | .error e => .error e)) := by
  refine ⟨fun h => ?_, fun h => ?_, fun h => ?_⟩
  · rw [derive_succ]
    unfold deriveAux
    simp only [unionLiteralEnum_all_str types h]
  · rw [derive_succ]
    unfold deriveAux
    simp only [unionLiteralEnum_all_num types h]
  · rw [derive_succ]
    unfold deriveAux
    simp only [unionLiteralEnum_mixed types h]

/-- Witness for C5: `"a" | "b"` gives `{enum:["a","b"]}`; `1 | 2` gives
`{enum:[1,2]}`; `"a" | number` gives `{oneOf:[{enum:["a"]},
{type:"number"}]}`. -/
theorem union_enum_derivation_witness :
    derive envNil 2 (.unionType
        [.literalType (.str "a"), .literalType (.str "b")]) [] =
      .ok (enumSchema [.str "a", .str "b"], []) ∧
    derive envNil 2 (.unionType
        [.literalType (.num 1), .literalType (.num 2)]) [] =
      .ok (enumSchema [.num 1, .num 2], []) ∧
    derive envNil 2 (.unionType
        [.literalType (.str "a"), .numberKeyword]) [] =
      .ok (oneOfSchema [enumSchema [.str "a"], typeSchema "number"], []) :=
  ⟨(union_enum_derivation envNil 1
      [.literalType (.str "a"), .literalType (.str "b")] []).1
      (by intro u hu; fin_cases hu <;> exact ⟨_, rfl⟩),
   (union_enum_derivation envNil 1
      [.literalType (.num 1), .literalType (.num 2)] []).2.1
      (by intro u hu; fin_cases hu <;> exact ⟨_, rfl⟩),
   ((union_enum_derivation envNil 1
      [.literalType (.str "a"), .numberKeyword] []).2.2
      (Or.inl ⟨.numberKeyword, by simp, fun l => by simp⟩)).trans rfl⟩

theorem pickList_forall2 (keys? : Option (List JVal)) :
    ∀ cs cs', pickList cs keys? = .ok cs' →
      List.Forall₂ (fun c c' => pickProperties c keys? = .ok c') cs cs' := by
  intro cs
  induction cs with
  | nil =>
    intro cs' h
    unfold pickList at h
    simp only [Except.ok.injEq] at h
    subst h
    exact List.Forall₂.nil
  | cons c rest ih =>
    intro cs' h
    unfold pickList at h
    cases hp : pickProperties c keys? with
    | error e => simp only [hp] at h; exact absurd h (by simp)
    | ok c0 =>
      simp only [hp] at h
      cases hr : pickList rest keys? with
      | error e => simp only [hr, Except.map] at h; exact absurd h (by simp)
      | ok rest0 =>
        simp only [hr, Except.map, Except.ok.injEq] at h
        subst h
        exact List.Forall₂.cons hp (ih rest0 hr)

theorem dropList_forall2 (keys? : Option (List JVal)) :
    ∀ cs cs', dropList cs keys? = .ok cs' →
      List.Forall₂ (fun c c' => dropProperties c keys? = .ok c') cs cs' := by
  intro cs
  induction cs with
  | nil =>
    intro cs' h
    unfold dropList at h
    simp only [Except.ok.injEq] at h
    subst h
    exact List.Forall₂.nil
  | cons c rest ih =>
    intro cs' h
    unfold dropList at h
    cases hp : dropProperties c keys? with
    | error e => simp only [hp] at h; exact absurd h (by simp)
    | ok c0 =>
      simp only [hp] at h
      cases hr : dropList rest keys? with
      | error e => simp only [hr, Except.map] at h; exact absurd h (by simp)
      | ok rest0 =>
        simp only [hr, Except.map, Except.ok.injEq] at h
        subst h
        exact List.Forall₂.cons hp (ih rest0 hr)

/-- C3 (amended): on an `allOf`/`oneOf`/`anyOf` combinator schema, both
projections recurse into every child (on success the output children are
exactly the projected children, in order and of the same arity) and place
the result under the `allOf` label in every case; however the rewrite is a
spread that only overwrites `allOf`, so for `oneOf`/`anyOf` inputs the
original combinator field is retained unchanged alongside the new
`allOf`. -/
theorem projection_distributes_allOf (tt : Option String)
    (pr : Option (List (String × Schema))) (rq : Option (List String))
    (it : Option Schema) (en : Option (List JVal))
    (oo yy : Option (List Schema)) (fm : Option String)
    (cs : List Schema) (keys? : Option (List JVal))
    (ht : tt ≠ some "object") :
    (pickProperties (.mk tt pr rq it en oo (some cs) yy fm) keys? =
       (pickList cs keys?).map fun cs' =>
         .mk tt pr rq it en oo (some cs') yy fm) ∧
    (pickProperties (.mk tt pr rq it en (some cs) none yy fm) keys? =
       (pickList cs keys?).map fun cs' =>
         .mk tt pr rq it en (some cs) (some cs') yy fm) ∧
    (pickProperties (.mk tt pr rq it en none none (some cs) fm) keys? =
       (pickList cs keys?).map fun cs' =>
         .mk tt pr rq it en none (some cs') (some cs) fm) ∧
    (dropProperties (.mk tt pr rq it en oo (some cs) yy fm) keys? =
       (dropList cs keys?).map fun cs' =>
         .mk tt pr rq it en oo (some cs') yy fm) ∧
    (dropProperties (.mk tt pr rq it en (some cs) none yy fm) keys? =
       (dropList cs keys?).map fun cs' =>
         .mk tt pr rq it en (some cs) (some cs') yy fm) ∧
    (dropProperties (.mk tt pr rq it en none none (some cs) fm) keys? =
       (dropList cs keys?).map fun cs' =>
         .mk tt pr rq it en none (some cs') (some cs) fm) ∧
    (∀ cs', pickList cs keys? = .ok cs' →
       List.Forall₂ (fun c c' => pickProperties c keys? = .ok c') cs cs' ∧
       cs'.length = cs.length) ∧
    (∀ cs', dropList cs keys? = .ok cs' →
       List.Forall₂ (fun c c' => dropProperties c keys? = .ok c') cs cs' ∧
       cs'.length = cs.length) := by
  refine ⟨?_, ?_, ?_, ?_, ?_, ?_, fun cs' h => ?_, fun cs' h => ?_⟩
  · unfold pickProperties; rw [if_neg ht]
  · unfold pickProperties; rw [if_neg ht]
  · unfold pickProperties; rw [if_neg ht]
  · unfold dropProperties; rw [if_neg ht]
  · unfold dropProperties; rw [if_neg ht]
  · unfold dropProperties; rw [if_neg ht]
  · have hf := pickList_forall2 keys? cs cs' h
    exact ⟨hf, hf.length_eq.symm⟩
  · have hf := dropList_forall2 keys? cs cs' h
    exact ⟨hf, hf.length_eq.symm⟩

/-- C3 counterexample: `pickProperties` on the `oneOf` combinator
`{oneOf:[{type:"object", properties:{a,b}, required:[a,b]}]}` with keys
`["a"]` does *not* return the `allOf`-labeled combinator the claim
describes: the spread `{...def, allOf: ...}` keeps the original `oneOf`
field (with its unprojected children) alongside the new `allOf`, so the
result differs from `{allOf:[projected child]}`. -/
theorem projection_relabel_counterexample :
    pickProperties (oneOfSchema
        [objSchema [("a", typeSchema "string"), ("b", typeSchema "number")]
           ["a", "b"]]) (some [.str "a"]) =
      .ok (.mk none none none none none
        (some [objSchema [("a", typeSchema "string"),
                          ("b", typeSchema "number")] ["a", "b"]])
        (some [objSchema [("a", typeSchema "string")] ["a"]]) none none) ∧
    (Schema.mk none none none none none
        (some [objSchema [("a", typeSchema "string"),
                          ("b", typeSchema "number")] ["a", "b"]])
        (some [objSchema [("a", typeSchema "string")] ["a"]]) none none) ≠
      allOfSchema [objSchema [("a", typeSchema "string")] ["a"]] := by
  refine ⟨rfl, fun hc => ?_⟩
  have := congrArg Schema.oneOfC hc
  simp [Schema.oneOfC, allOfSchema] at this

/-- Witness for C3's amended theorem: the `oneOf` case at a concrete
input, plus the arity-preservation part. -/
theorem projection_distributes_allOf_witness :
    pickProperties (oneOfSchema
        [objSchema [("a", typeSchema "string"), ("b", typeSchema "number")]
           ["a", "b"]]) (some [.str "a"]) =
      .ok ((oneOfSchema
        [objSchema [("a", typeSchema "string"), ("b", typeSchema "number")]
           ["a", "b"]]).withAllOf
        (some [objSchema [("a", typeSchema "string")] ["a"]])) ∧
    [objSchema [("a", typeSchema "string")] ["a"]].length =
      [objSchema [("a", typeSchema "string"), ("b", typeSchema "number")]
         ["a", "b"]].length :=
  ⟨((projection_distributes_allOf none none none none none none none
      none [objSchema [("a", typeSchema "string"),
                       ("b", typeSchema "number")] ["a", "b"]]
      (some [.str "a"]) (by decide)).2.1).trans rfl,
   ((projection_distributes_allOf none none none none none none none
      none [objSchema [("a", typeSchema "string"),
                       ("b", typeSchema "number")] ["a", "b"]]
      (some [.str "a"]) (by decide)).2.2.2.2.2.2.1
      [objSchema [("a", typeSchema "string")] ["a"]] rfl).2⟩

/-!
### The object-schema invariant

Every schema the engine produces (and hence every cached schema) carries a
`properties` map exactly when its `type` is `"object"` — the spec's §3
invariant.  This is what ties the `keyof` branch's actual test (presence of
`properties`) to the claim's phrasing ("derives to an object schema").
-/

theorem schemaInv_typeSchema {ty : String} (h : ty ≠ "object") :
    SchemaInv (typeSchema ty) := by
  simp [SchemaInv, typeSchema, Schema.props, Schema.jtype, h]

theorem schemaInv_objSchema (ps : List (String × Schema)) (r : List String) :
    SchemaInv (objSchema ps r) := by
  simp [SchemaInv, objSchema, Schema.props, Schema.jtype]

theorem schemaInv_arraySchema (s : Schema) : SchemaInv (arraySchema s) := by
  simp [SchemaInv, arraySchema, Schema.props, Schema.jtype]

theorem schemaInv_enumSchema (vs : List JVal) : SchemaInv (enumSchema vs) := by
  simp [SchemaInv, enumSchema, Schema.props, Schema.jtype]

theorem schemaInv_oneOfSchema (cs : List Schema) :
    SchemaInv (oneOfSchema cs) := by
  simp [SchemaInv, oneOfSchema, Schema.props, Schema.jtype]

theorem schemaInv_allOfSchema (cs : List Schema) :
    SchemaInv (allOfSchema cs) := by
  simp [SchemaInv, allOfSchema, Schema.props, Schema.jtype]

theorem schemaInv_fmtSchema {ty f : String} (h : ty ≠ "object") :
    SchemaInv (fmtSchema ty f) := by
  simp [SchemaInv, fmtSchema, Schema.props, Schema.jtype, h]

theorem schemaInv_emptyS : SchemaInv Schema.emptyS := by
  simp [SchemaInv, Schema.emptyS, Schema.props, Schema.jtype]

theorem schemaInv_withReq {s : Schema} (o : Option (List String))
    (h : SchemaInv s) : SchemaInv (s.withReq o) := by
  unfold SchemaInv
  rw [Schema.props_withReq, Schema.jtype_withReq]
  exact h

theorem pickProperties_inv {s : Schema} {k : Option (List JVal)} {r : Schema}
    (hs : SchemaInv s) (h : pickProperties s k = .ok r) : SchemaInv r := by
  obtain ⟨tt, pr, rq, it, en, oo, al, yy, fm⟩ := s
  unfold pickProperties at h
  by_cases ht : tt = some "object"
  · rw [if_pos ht] at h
    split at h
    · simp only [Except.ok.injEq] at h
      subst h
      simp [SchemaInv, Schema.props, Schema.jtype, ht]
    · exact absurd h (by simp)
  · rw [if_neg ht] at h
    have hinv : pr.isSome ↔ tt = some "object" := hs
    cases al with
    | some cs =>
      cases hpl : pickList cs k with
      | error e => simp only [hpl, Except.map] at h; exact absurd h (by simp)
      | ok cs' =>
        simp only [hpl, Except.map, Except.ok.injEq] at h
        subst h
        exact hinv
    | none =>
      cases oo with
      | some cs =>
        cases hpl : pickList cs k with
        | error e =>
          simp only [hpl, Except.map] at h; exact absurd h (by simp)
        | ok cs' =>
          simp only [hpl, Except.map, Except.ok.injEq] at h
          subst h
          exact hinv
      | none =>
        cases yy with
        | some cs =>
          cases hpl : pickList cs k with
          | error e =>
            simp only [hpl, Except.map] at h; exact absurd h (by simp)
          | ok cs' =>
            simp only [hpl, Except.map, Except.ok.injEq] at h
            subst h
            exact hinv
        | none => exact absurd h (by simp)

theorem dropProperties_inv {s : Schema} {k : Option (List JVal)} {r : Schema}
    (hs : SchemaInv s) (h : dropProperties s k = .ok r) : SchemaInv r := by
  obtain ⟨tt, pr, rq, it, en, oo, al, yy, fm⟩ := s
  unfold dropProperties at h
  by_cases ht : tt = some "object"
  · rw [if_pos ht] at h
    split at h
    · simp only [Except.ok.injEq] at h
      subst h
      simp [SchemaInv, Schema.props, Schema.jtype, ht]
    · exact absurd h (by simp)
  · rw [if_neg ht] at h
    have hinv : pr.isSome ↔ tt = some "object" := hs
    cases al with
    | some cs =>
      cases hpl : dropList cs k with
      | error e => simp only [hpl, Except.map] at h; exact absurd h (by simp)
      | ok cs' =>
        simp only [hpl, Except.map, Except.ok.injEq] at h
        subst h
        exact hinv
    | none =>
      cases oo with
      | some cs =>
        cases hpl : dropList cs k with
        | error e =>
          simp only [hpl, Except.map] at h; exact absurd h (by simp)
        | ok cs' =>
          simp only [hpl, Except.map, Except.ok.injEq] at h
          subst h
          exact hinv
      | none =>
        cases yy with
        | some cs =>
          cases hpl : dropList cs k with
          | error e =>
            simp only [hpl, Except.map] at h; exact absurd h (by simp)
          | ok cs' =>
            simp only [hpl, Except.map, Except.ok.injEq] at h
            subst h
            exact hinv
        | none => exact absurd h (by simp)

theorem unionLiteralEnum_inv {types : List TypeExpr} {s0 : Schema}
    (h : unionLiteralEnum types = some s0) : SchemaInv s0 := by
  unfold unionLiteralEnum at h
  dsimp only at h
  split at h
  · split at h
    · simp only [Option.some.injEq] at h
      subst h
      exact schemaInv_enumSchema _
    · split at h
      · simp only [Option.some.injEq] at h
        subst h
        exact schemaInv_enumSchema _
      · exact absurd h (by simp)
  · exact absurd h (by simp)

theorem deriveListAux_inv (drv : TypeExpr → St → Res)
    (hdrv : ∀ u st s st', CacheInv st → drv u st = .ok (s, st') →
      SchemaInv s ∧ CacheInv st') :
    ∀ ts st ss st', CacheInv st →
      deriveListAux drv ts st = .ok (ss, st') → CacheInv st' := by
  intro ts
  induction ts with
  | nil =>
    intro st ss st' hc h
    simp only [deriveListAux, Except.ok.injEq, Prod.mk.injEq] at h
    rw [← h.2]
    exact hc
  | cons t ts ih =>
    intro st ss st' hc h
    simp only [deriveListAux] at h
    cases hd : drv t st with
    | error e => simp only [hd] at h; exact absurd h (by simp)
    | ok p =>
      obtain ⟨s1, st1⟩ := p
      simp only [hd] at h
      cases hdl : deriveListAux drv ts st1 with
      | error e => simp only [hdl] at h; exact absurd h (by simp)
      | ok q =>
        obtain ⟨ss1, st2⟩ := q
        simp only [hdl, Except.ok.injEq, Prod.mk.injEq] at h
        rw [← h.2]
        exact ih st1 ss1 st2 (hdrv t st s1 st1 hc hd).2 hdl

theorem resolveAux_inv (env : Env) (drv : TypeExpr → St → Res)
    (hdrv : ∀ u st s st', CacheInv st → drv u st = .ok (s, st') →
      SchemaInv s ∧ CacheInv st') :
    ∀ name st s st', CacheInv st →
      resolveAux env drv name st = .ok (s, st') →
      SchemaInv s ∧ CacheInv st' := by
  intro name st s st' hc h
  unfold resolveAux at h
  cases hl : List.lookup name st with
  | some s0 =>
    simp only [hl, Except.ok.injEq, Prod.mk.injEq] at h
    obtain ⟨h1, h2⟩ := h
    subst h1; subst h2
    exact ⟨hc _ (lookup_mem hl), hc⟩
  | none =>
    simp only [hl] at h
    cases hd : List.lookup name env.decls with
    | none => simp only [hd] at h; exact absurd h (by simp)
    | some body =>
      simp only [hd] at h
      cases hdr : drv body st with
      | error e => simp only [hdr] at h; exact absurd h (by simp)
      | ok p =>
        obtain ⟨s1, st1⟩ := p
        simp only [hdr, Except.ok.injEq, Prod.mk.injEq] at h
        obtain ⟨h1, h2⟩ := h
        subst h1
        obtain ⟨hinv, hc1⟩ := hdrv body st _ _ hc hdr
        subst h2
        refine ⟨hinv, fun q hq => ?_⟩
        rcases List.mem_cons.mp hq with rfl | hq'
        · exact hinv
        · exact hc1 q hq'

theorem deriveAux_inv (env : Env) (rsl : String → St → Res)
    (drv : TypeExpr → St → Res)
    (hrsl : ∀ name st s st', CacheInv st → rsl name st = .ok (s, st') →
      SchemaInv s ∧ CacheInv st')
    (hdrv : ∀ u st s st', CacheInv st → drv u st = .ok (s, st') →
      SchemaInv s ∧ CacheInv st') :
    ∀ t st s st', CacheInv st → deriveAux env rsl drv t st = .ok (s, st') →
      SchemaInv s ∧ CacheInv st' := by
  intro t st s st' hc h
  cases t with
  | stringKeyword =>
    simp only [deriveAux, Except.ok.injEq, Prod.mk.injEq] at h
    rw [← h.1, ← h.2]
    exact ⟨schemaInv_typeSchema (by decide), hc⟩
  | numberKeyword =>
    simp only [deriveAux, Except.ok.injEq, Prod.mk.injEq] at h
    rw [← h.1, ← h.2]
    exact ⟨schemaInv_typeSchema (by decide), hc⟩
  | booleanKeyword =>
    simp only [deriveAux, Except.ok.injEq, Prod.mk.injEq] at h
    rw [← h.1, ← h.2]
    exact ⟨schemaInv_typeSchema (by decide), hc⟩
  | nullKeyword =>
    simp only [deriveAux, Except.ok.injEq, Prod.mk.injEq] at h
    rw [← h.1, ← h.2]
    exact ⟨schemaInv_typeSchema (by decide), hc⟩
  | undefinedKeyword =>
    simp only [deriveAux, Except.ok.injEq, Prod.mk.injEq] at h
    rw [← h.1, ← h.2]
    exact ⟨schemaInv_typeSchema (by decide), hc⟩
  | typeLiteral members =>
    simp only [deriveAux] at h
    cases hdl : deriveListAux drv (members.map fun m => m.2.2) st with
    | error e => simp only [hdl] at h; exact absurd h (by simp)
    | ok q =>
      obtain ⟨ss, st2⟩ := q
      simp only [hdl, Except.ok.injEq, Prod.mk.injEq] at h
      rw [← h.1, ← h.2]
      exact ⟨schemaInv_objSchema _ _,
        deriveListAux_inv drv hdrv _ st ss st2 hc hdl⟩
  | arrayType elem =>
    simp only [deriveAux] at h
    cases hda : drv elem st with
    | error e => simp only [hda] at h; exact absurd h (by simp)
    | ok p =>
      obtain ⟨s1, st1⟩ := p
      simp only [hda, Except.ok.injEq, Prod.mk.injEq] at h
      rw [← h.1, ← h.2]
      exact ⟨schemaInv_arraySchema s1, (hdrv elem st s1 st1 hc hda).2⟩
  | typeReference name targs =>
    simp only [deriveAux] at h
    split at h
    · -- Array
      split at h
      · rename_i a rest
        cases hda : drv a st with
        | error e => simp only [hda] at h; exact absurd h (by simp)
        | ok p =>
          obtain ⟨s1, st1⟩ := p
          simp only [hda, Except.ok.injEq, Prod.mk.injEq] at h
          rw [← h.1, ← h.2]
          exact ⟨schemaInv_arraySchema s1, (hdrv a st s1 st1 hc hda).2⟩
      · exact absurd h (by simp)
    · -- Partial
      split at h
      · rename_i a rest
        cases hda : drv a st with
        | error e => simp only [hda] at h; exact absurd h (by simp)
        | ok p =>
          obtain ⟨s1, st1⟩ := p
          simp only [hda, Except.ok.injEq, Prod.mk.injEq] at h
          rw [← h.1, ← h.2]
          exact ⟨schemaInv_withReq none (hdrv a st s1 st1 hc hda).1,
            (hdrv a st s1 st1 hc hda).2⟩
      · exact absurd h (by simp)
    · -- Required
      split at h
      · rename_i a rest
        cases hda : drv a st with
        | error e => simp only [hda] at h; exact absurd h (by simp)
        | ok p =>
          obtain ⟨s1, st1⟩ := p
          simp only [hda] at h
          cases hps : s1.props with
          | none => simp only [hps] at h; exact absurd h (by simp)
          | some ps =>
            simp only [hps, Except.ok.injEq, Prod.mk.injEq] at h
            rw [← h.1, ← h.2]
            exact ⟨schemaInv_withReq _ (hdrv a st s1 st1 hc hda).1,
              (hdrv a st s1 st1 hc hda).2⟩
      · exact absurd h (by simp)
    · -- Readonly
      split at h
      · rename_i a rest
        exact hdrv a st s st' hc h
      · exact absurd h (by simp)
    · -- Pick
      split at h
      · rename_i a b rest
        cases hda : drv a st with
        | error e => simp only [hda] at h; exact absurd h (by simp)
        | ok p =>
          obtain ⟨s1, st1⟩ := p
          simp only [hda] at h
          cases hdb : drv b st1 with
          | error e => simp only [hdb] at h; exact absurd h (by simp)
          | ok q =>
            obtain ⟨s2, st2⟩ := q
            simp only [hdb] at h
            have hc2 : CacheInv st2 :=
              (hdrv b st1 s2 st2 (hdrv a st s1 st1 hc hda).2 hdb).2
            split at h
            · rename_i r0 hr0
              simp only [Except.ok.injEq, Prod.mk.injEq] at h
              rw [← h.1, ← h.2]
              exact ⟨pickProperties_inv (hdrv a st s1 st1 hc hda).1 hr0, hc2⟩
            · simp only [Except.ok.injEq, Prod.mk.injEq] at h
              rw [← h.1, ← h.2]
              exact ⟨schemaInv_emptyS, hc2⟩
            · exact absurd h (by simp)
      · exact absurd h (by simp)
    · -- Record
      split at h
      · rename_i a b rest
        cases hda : drv a st with
        | error e => simp only [hda] at h; exact absurd h (by simp)
        | ok p =>
          obtain ⟨s1, st1⟩ := p
          simp only [hda] at h
          cases hdb : drv b st1 with
          | error e => simp only [hdb] at h; exact absurd h (by simp)
          | ok q =>
            obtain ⟨s2, st2⟩ := q
            simp only [hdb] at h
            cases hen : s1.jenum with
            | none => simp only [hen] at h; exact absurd h (by simp)
            | some vs =>
              simp only [hen, Except.ok.injEq, Prod.mk.injEq] at h
              rw [← h.1, ← h.2]
              exact ⟨schemaInv_objSchema _ _,
                (hdrv b st1 s2 st2 (hdrv a st s1 st1 hc hda).2 hdb).2⟩
      · exact absurd h (by simp)
    · -- Exclude
      split at h
      · rename_i a rest
        exact hdrv a st s st' hc h
      · exact absurd h (by simp)
    · -- Extract
      split at h
      · rename_i a b rest
        exact hdrv b st s st' hc h
      · exact absurd h (by simp)
    · -- Omit
      split at h
      · rename_i a b rest
        cases hda : drv a st with
        | error e => simp only [hda] at h; exact absurd h (by simp)
        | ok p =>
          obtain ⟨s1, st1⟩ := p
          simp only [hda] at h
          cases hdb : drv b st1 with
          | error e => simp only [hdb] at h; exact absurd h (by simp)
          | ok q =>
            obtain ⟨s2, st2⟩ := q
            simp only [hdb] at h
            have hc2 : CacheInv st2 :=
              (hdrv b st1 s2 st2 (hdrv a st s1 st1 hc hda).2 hdb).2
            split at h
            · rename_i r0 hr0
              simp only [Except.ok.injEq, Prod.mk.injEq] at h
              rw [← h.1, ← h.2]
              exact ⟨dropProperties_inv (hdrv a st s1 st1 hc hda).1 hr0, hc2⟩
            · simp only [Except.ok.injEq, Prod.mk.injEq] at h
              rw [← h.1, ← h.2]
              exact ⟨schemaInv_emptyS, hc2⟩
            · exact absurd h (by simp)
      · exact absurd h (by simp)
    · -- Date
      simp only [Except.ok.injEq, Prod.mk.injEq] at h
      rw [← h.1, ← h.2]
      exact ⟨schemaInv_fmtSchema (by decide), hc⟩
    · -- RegExp
      simp only [Except.ok.injEq, Prod.mk.injEq] at h
      rw [← h.1, ← h.2]
      exact ⟨schemaInv_fmtSchema (by decide), hc⟩
    · -- default: bare reference resolves; with type arguments, fall
      -- through to the unsupported-node failure
      split at h
      · exact hrsl name st s st' hc h
      · exact absurd h (by simp)
  | literalType l =>
    simp only [deriveAux] at h
    cases l with
    | str v =>
      simp only [Except.ok.injEq, Prod.mk.injEq] at h
      rw [← h.1, ← h.2]
      exact ⟨schemaInv_enumSchema _, hc⟩
    | num v =>
      simp only [Except.ok.injEq, Prod.mk.injEq] at h
      rw [← h.1, ← h.2]
      exact ⟨schemaInv_enumSchema _, hc⟩
    | boolLit v => exact absurd h (by simp)
  | unionType types =>
    simp only [deriveAux] at h
    cases hue : unionLiteralEnum types with
    | some s0 =>
      simp only [hue, Except.ok.injEq, Prod.mk.injEq] at h
      rw [← h.1, ← h.2]
      exact ⟨unionLiteralEnum_inv hue, hc⟩
    | none =>
      simp only [hue] at h
      cases hdl : deriveListAux drv types st with
      | error e => simp only [hdl] at h; exact absurd h (by simp)
      | ok q =>
        obtain ⟨ss, st2⟩ := q
        simp only [hdl, Except.ok.injEq, Prod.mk.injEq] at h
        rw [← h.1, ← h.2]
        exact ⟨schemaInv_oneOfSchema _,
          deriveListAux_inv drv hdrv _ st ss st2 hc hdl⟩
  | intersectionType types =>
    simp only [deriveAux] at h
    cases hdl : deriveListAux drv types st with
    | error e => simp only [hdl] at h; exact absurd h (by simp)
    | ok q =>
      obtain ⟨ss, st2⟩ := q
      simp only [hdl, Except.ok.injEq, Prod.mk.injEq] at h
      rw [← h.1, ← h.2]
      exact ⟨schemaInv_allOfSchema _,
        deriveListAux_inv drv hdrv _ st ss st2 hc hdl⟩
  | keyofType target =>
    simp only [deriveAux] at h
    cases hda : drv target st with
    | error e => simp only [hda] at h; exact absurd h (by simp)
    | ok p =>
      obtain ⟨s1, st1⟩ := p
      simp only [hda] at h
      cases hps : s1.props with
      | none => simp only [hps] at h; exact absurd h (by simp)
      | some ps =>
        simp only [hps, Except.ok.injEq, Prod.mk.injEq] at h
        rw [← h.1, ← h.2]
        exact ⟨schemaInv_enumSchema _, (hdrv target st s1 st1 hc hda).2⟩
  | conditionalType ck ex tb fb =>
    simp only [deriveAux] at h
    split at h
    · exact absurd h (by simp)
    · split at h
      · exact hdrv tb st s st' hc h
      · exact hdrv fb st s st' hc h

/-- Every successful `resolve` / `derive` run started from an
invariant-satisfying cache produces an invariant-satisfying schema and
cache, at every fuel. -/
theorem engineInv (env : Env) : ∀ f : Nat,
    (∀ name st s st', CacheInv st → resolve env f name st = .ok (s, st') →
      SchemaInv s ∧ CacheInv st') ∧
    (∀ t st s st', CacheInv st → derive env f t st = .ok (s, st') →
      SchemaInv s ∧ CacheInv st') := by
  intro f
  induction f with
  | zero =>
    constructor
    · intro name st s st' _ h; exact absurd h (by simp [resolve])
    · intro t st s st' _ h; exact absurd h (by simp [derive])
  | succ f ih =>
    obtain ⟨ihr, ihd⟩ := ih
    have hd : ∀ t st s st', CacheInv st →
        derive env (f+1) t st = .ok (s, st') → SchemaInv s ∧ CacheInv st' := by
      intro t st s st' hc h
      rw [derive_succ] at h
      exact deriveAux_inv env _ _ ihr ihd t st s st' hc h
    refine ⟨?_, hd⟩
    intro name st s st' hc h
    rw [resolve_succ] at h
    exact resolveAux_inv env _ ihd name st s st' hc h

/-- C7: when `derive(target)` succeeds (from an invariant-satisfying
cache), deriving `keyof target` returns the `enum` of the property names
of `derive(target)` whenever the latter is an object schema — an object
schema always carries a `properties` map — and fails with
`keyOfNonObject` (the `Object.keys(undefined)` failure the spec names
`KeyOfNonObject`) whenever it is not an object schema. -/
theorem keyof_enum_contract (env : Env) (f : Nat) (target : TypeExpr)
    (st : St) (s : Schema) (st' : St) (hc : CacheInv st)
    (hd : derive env f target st = .ok (s, st')) :
    (∀ ps, s.props = some ps →
       derive env (f+1) (.keyofType target) st =
         .ok (enumSchema (ps.map fun p => JVal.str p.1), st')) ∧
    (s.jtype = some "object" → ∃ ps, s.props = some ps) ∧
    (s.jtype ≠ some "object" →
       derive env (f+1) (.keyofType target) st =
         .error .keyOfNonObject) := by
  have hinv : SchemaInv s := ((engineInv env f).2 target st s st' hc hd).1
  refine ⟨fun ps hps => ?_, fun hobj => ?_, fun hnobj => ?_⟩
  · rw [derive_succ]
    unfold deriveAux
    simp only [hd, hps]
  · have := hinv.mpr hobj
    exact Option.isSome_iff_exists.mp this
  · have hnone : s.props = none := by
      cases hps : s.props with
      | none => rfl
      | some ps =>
        exact absurd (hinv.mp (by simp [hps])) hnobj
    rw [derive_succ]
    unfold deriveAux
    simp only [hd, hnone]

/-- Witness for C7: `keyof {a: string, b: number}` yields
`{enum:["a","b"]}`; `keyof number` (not an object schema) fails with
`keyOfNonObject`. -/
theorem keyof_enum_contract_witness :
    derive envNil 3 (.keyofType (.typeLiteral
        [("a", false, .stringKeyword), ("b", false, .numberKeyword)])) [] =
      .ok (enumSchema [.str "a", .str "b"], []) ∧
    derive envNil 2 (.keyofType .numberKeyword) [] =
      .error .keyOfNonObject :=
  ⟨(keyof_enum_contract envNil 2 (.typeLiteral
      [("a", false, .stringKeyword), ("b", false, .numberKeyword)]) []
      (objSchema [("a", typeSchema "string"), ("b", typeSchema "number")]
        ["a", "b"]) [] (fun q hq => by simp at hq) rfl).1
      [("a", typeSchema "string"), ("b", typeSchema "number")] rfl,
   (keyof_enum_contract envNil 1 .numberKeyword []
      (typeSchema "number") [] (fun q hq => by simp at hq) rfl).2.2
      (by simp [typeSchema, Schema.jtype])⟩

namespace HeapM

theorem resolveH_succ (decls : List (String × TypeExpr)) (f : Nat)
    (name : String) (h : Heap) (c : Cache) :
    resolveH decls (f+1) name h c =
      resolveHAux decls (deriveH decls f) name h c := rfl

theorem deriveH_succ (decls : List (String × TypeExpr)) (f : Nat)
    (t : TypeExpr) (h : Heap) (c : Cache) :
    deriveH decls (f+1) t h c =
      deriveHAux (resolveH decls f) (deriveH decls f) t h c := rfl

theorem readObj_lt {h : Heap} {a : Nat} {o : HObj}
    (hr : readObj h a = some o) : a < h.length := by
  by_contra hc
  push_neg at hc
  rw [readObj, List.getElem?_eq_none hc] at hr
  exact Option.noConfusion hr

theorem readObj_append_left {h : Heap} (l : Heap) {a : Nat}
    (ha : a < h.length) : readObj (h ++ l) a = readObj h a := by
  rw [readObj, readObj, List.getElem?_append, if_pos ha]

theorem readObj_concat_self (h : Heap) (o : HObj) :
    readObj (h ++ [o]) h.length = some o :=
  List.getElem?_concat_length h o

theorem readObj_write_self {h : Heap} {p : Nat} (hp : p < h.length)
    (x : HObj) : readObj (writeObj h p x) p = some x := by
  rw [readObj, writeObj]
  exact List.getElem?_set_self (by simpa using hp)

theorem readObj_write_ne {h : Heap} {p q : Nat} (hne : p ≠ q) (x : HObj) :
    readObj (writeObj h p x) q = readObj h q := by
  rw [readObj, writeObj, readObj]
  exact List.getElem?_set_ne hne

theorem objGet_objDel_self (o : HObj) (k : String) :
    objGet (objDel o k) k = none := by
  induction o with
  | nil => rfl
  | cons q t ih =>
    by_cases hq : q.1 = k
    · have h1 : (q.1 != k) = false := by simp [hq]
      simpa [objDel, List.filter_cons, h1] using ih
    · have h1 : (q.1 != k) = true := by simp [hq]
      have h2 : (k == q.1) = false := by simp [Ne.symm hq]
      simpa [objDel, objGet, List.filter_cons, h1, List.lookup, h2] using ih

theorem objGet_objDel_ne (o : HObj) {k k' : String} (hne : k' ≠ k) :
    objGet (objDel o k) k' = objGet o k' := by
  induction o with
  | nil => rfl
  | cons q t ih =>
    by_cases hq : q.1 = k
    · have h1 : (q.1 != k) = false := by simp [hq]
      have h2 : (k' == q.1) = false := by
        subst hq
        simp [hne]
      simpa [objDel, objGet, List.filter_cons, h1, List.lookup, h2] using ih
    · have h1 : (q.1 != k) = true := by simp [hq]
      by_cases hk' : k' = q.1
      · simp [objDel, objGet, List.filter_cons, h1, List.lookup, hk']
      · have h2 : (k' == q.1) = false := by simp [hk']
        simpa [objDel, objGet, List.filter_cons, h1, List.lookup, h2] using ih

theorem foldl_objDel (keys : List String) : ∀ po : HObj,
    keys.foldl objDel po = po.filter fun kv => !keys.contains kv.1 := by
  induction keys with
  | nil => intro po; simp
  | cons k keys ih =>
    intro po
    rw [List.foldl_cons, ih (objDel po k)]
    rw [objDel, List.filter_filter]
    congr 1
    funext kv
    simp only [List.contains_cons, Bool.not_or, bne]
    cases hk : kv.1 == k <;> cases hc : keys.contains kv.1 <;> rfl

theorem allStringLits_map (ss : List String) :
    allStringLits (ss.map fun v => .literalType (.str v)) = some ss := by
  induction ss with
  | nil => rfl
  | cons v ss ih => simp [allStringLits, ih]

/-- C8 (amended): let `T` be a bare named reference already resolved into
the Resolution Cache — cached schema object at address `a` with
`type:"object"`, a `properties` *reference* to the object at `p`, and a
`required` array.  Deriving `Omit<T, K>` goes through the shallow copy
`{...resolve(T)}`, which shares the properties object at `p`, and
`dropProperties` deletes the omitted keys from that shared object in
place: afterwards the heap object at `p` has lost exactly the keys of
`K`, while the cached schema object at `a` — in particular its
`required` array — is unchanged, and a subsequent `resolve(T)` returns
the same address `a`, now exposing the mutated properties.  Deriving
`Partial<T>`, by contrast, deletes `required` from the fresh copy only:
the objects at `a` and `p` are untouched (the returned copy lacks
`required` but still shares the properties reference), and a subsequent
`resolve(T)` returns the original, unmutated schema. -/
theorem omit_mutates_shared_props (decls : List (String × TypeExpr))
    (f g : Nat) (name : String) (ss : List String) (h : Heap) (c : Cache)
    (a p : Nat) (o po : HObj) (r : List String)
    (hname : name ∉ ["Partial", "Omit"])
    (hcache : List.lookup name c = some a)
    (ha : readObj h a = some o)
    (hty : objGet o "type" = some (.vstr "object"))
    (hpr : objGet o "properties" = some (.vref p))
    (hrq : objGet o "required" = some (.vlist r))
    (hp : readObj h p = some po)
    (hap : a ≠ p) :
    (∃ res h',
       deriveH decls (f+3) (.typeReference "Omit" (some
           [.typeReference name none,
            .unionType (ss.map fun v => .literalType (.str v))])) h c =
         .ok (res, h', c) ∧
       readObj h' p = some (po.filter fun kv => !ss.contains kv.1) ∧
       readObj h' a = some o ∧
       resolveH decls (g+1) name h' c = .ok (a, h', c)) ∧
    (∃ res h',
       deriveH decls (f+3)
           (.typeReference "Partial" (some [.typeReference name none])) h c =
         .ok (res, h', c) ∧
       readObj h' p = some po ∧
       readObj h' a = some o ∧
       (∃ ores, readObj h' res = some ores ∧
          objGet ores "required" = none ∧
          objGet ores "properties" = some (.vref p)) ∧
       resolveH decls (g+1) name h' c = .ok (a, h', c)) := by
  have hLa : a < h.length := readObj_lt ha
  have hLp : p < h.length := readObj_lt hp
  have hres : ∀ f', resolveH decls (f'+1) name h c = .ok (a, h, c) := by
    intro f'
    rw [resolveH_succ]
    unfold resolveHAux
    simp only [hcache]
  have href : ∀ f', deriveH decls (f'+2) (.typeReference name none) h c =
      .ok (h.length, h ++ [o], c) := by
    intro f'
    rw [deriveH_succ]
    unfold deriveHAux
    split
    any_goals simp_all [alloc]
    rename_i heq
    obtain ⟨-, h2⟩ := heq
    subst h2
    rfl
  have hkeys : ∀ f', deriveH decls (f'+2)
      (.unionType (ss.map fun v => .literalType (.str v))) (h ++ [o]) c =
      .ok ((h ++ [o]).length,
           (h ++ [o]) ++ [[("enum", HVal.vlist ss)]], c) := by
    intro f'
    rw [deriveH_succ]
    unfold deriveHAux
    simp only [allStringLits_map, alloc]
  have hresolveHit : ∀ (h0 : Heap),
      resolveH decls (g+1) name h0 c = .ok (a, h0, c) := by
    intro h0
    rw [resolveH_succ]
    unfold resolveHAux
    simp only [hcache]
  constructor
  · -- Omit<T, K>
    refine ⟨(writeObj ((h ++ [o]) ++ [[("enum", HVal.vlist ss)]]) p
        (ss.foldl objDel po)).length,
      writeObj ((h ++ [o]) ++ [[("enum", HVal.vlist ss)]]) p
          (ss.foldl objDel po) ++
        [objSet o "required" (.vlist (r.filter fun x => !ss.contains x))],
      ?_, ?_, ?_, ?_⟩
    · have hstep : deriveH decls (f+3) (.typeReference "Omit" (some
          [.typeReference name none,
           .unionType (ss.map fun v => .literalType (.str v))])) h c =
          (match deriveH decls (f+2) (.typeReference name none) h c with
           | .ok (a1, h1, c1) =>
             (match deriveH decls (f+2)
                 (.unionType (ss.map fun v => .literalType (.str v)))
                 h1 c1 with
              | .ok (k1, h2, c2) =>
                (match readObj h2 k1 with
                 | some ko => dropPropertiesH h2 c2 a1
                     (match objGet ko "enum" with
                      | some (.vlist s1) => some s1
                      | _ => none)
                 | none => .error .jsError)
              | .error e => .error e)
           | .error e => .error e) := rfl
      rw [hstep]
      simp only [href f, hkeys f, readObj_concat_self]
      have henum : (match objGet [("enum", HVal.vlist ss)] "enum" with
                    | some (.vlist s1) => some s1
                    | _ => none) = some ss := rfl
      rw [henum]
      have h1 : readObj ((h ++ [o]) ++ [[("enum", HVal.vlist ss)]])
          h.length = some o := by
        rw [readObj_append_left _ (by simp), readObj_concat_self]
      have h2 : readObj ((h ++ [o]) ++ [[("enum", HVal.vlist ss)]]) p =
          some po := by
        rw [readObj_append_left _ (by simp; omega),
            readObj_append_left _ hLp, hp]
      unfold dropPropertiesH
      simp only [h1, hty, hpr, h2, hrq, alloc, if_true]
    · rw [readObj_append_left _ (by simp [writeObj]; omega),
          readObj_write_self (by simp; omega), foldl_objDel]
    · rw [readObj_append_left _ (by simp [writeObj]; omega),
          readObj_write_ne (fun hh => hap hh.symm),
          readObj_append_left _ (by simp; omega),
          readObj_append_left _ hLa, ha]
    · exact hresolveHit _
  · -- Partial<T>
    refine ⟨(writeObj (h ++ [o]) h.length (objDel o "required")).length,
      writeObj (h ++ [o]) h.length (objDel o "required") ++
        [objDel o "required"], ?_, ?_, ?_, ?_, ?_⟩
    · have hstep : deriveH decls (f+3)
          (.typeReference "Partial" (some [.typeReference name none])) h c =
          (match deriveH decls (f+2) (.typeReference name none) h c with
           | .ok (a1, h1, c1) =>
             (match readObj h1 a1 with
              | some o1 =>
                (match readObj (writeObj h1 a1 (objDel o1 "required"))
                    a1 with
                 | some o2 =>
                   .ok ((writeObj h1 a1 (objDel o1 "required")).length,
                        writeObj h1 a1 (objDel o1 "required") ++ [o2], c1)
                 | none => .error .jsError)
              | none => .error .jsError)
           | .error e => .error e) := rfl
      rw [hstep]
      have hws : readObj (writeObj (h ++ [o]) h.length
          (objDel o "required")) h.length = some (objDel o "required") :=
        readObj_write_self (by simp) _
      simp only [href f, readObj_concat_self, hws]
    · rw [readObj_append_left _ (by simp [writeObj]; omega),
          readObj_write_ne (by omega),
          readObj_append_left _ hLp, hp]
    · rw [readObj_append_left _ (by simp [writeObj]; omega),
          readObj_write_ne (by omega),
          readObj_append_left _ hLa, ha]
    · refine ⟨objDel o "required", ?_, objGet_objDel_self o "required", ?_⟩
      · exact readObj_concat_self _ _
      · rw [objGet_objDel_ne o (by decide), hpr]
    · exact hresolveHit _

/-- Witness for C8's amended theorem: the concrete scenario
`type T = {a: string; b: number}`, first resolved into the cache
(schema object at address 3, properties object at 2), then
`Omit<T, "a">` and `Partial<T>` derived. -/
theorem omit_mutates_shared_props_witness :
    (∃ res h',
       deriveH declsT 9 (.typeReference "Omit" (some
           [.typeReference "T" none,
            .unionType (["a"].map fun v => .literalType (.str v))]))
         heapT cacheT = .ok (res, h', cacheT) ∧
       readObj h' 2 = some [("b", .vref 1)] ∧
       readObj h' 3 = some [("type", .vstr "object"),
                            ("properties", .vref 2),
                            ("required", .vlist ["a", "b"])] ∧
       resolveH declsT 1 "T" h' cacheT = .ok (3, h', cacheT)) ∧
    (∃ res h',
       deriveH declsT 9
           (.typeReference "Partial" (some [.typeReference "T" none]))
         heapT cacheT = .ok (res, h', cacheT) ∧
       readObj h' 2 = some [("a", .vref 0), ("b", .vref 1)] ∧
       readObj h' 3 = some [("type", .vstr "object"),
                            ("properties", .vref 2),
                            ("required", .vlist ["a", "b"])] ∧
       (∃ ores, readObj h' res = some ores ∧
          objGet ores "required" = none ∧
          objGet ores "properties" = some (.vref 2)) ∧
       resolveH declsT 1 "T" h' cacheT = .ok (3, h', cacheT)) :=
  omit_mutates_shared_props declsT 6 0 "T" ["a"] heapT cacheT 3 2
    [("type", .vstr "object"), ("properties", .vref 2),
     ("required", .vlist ["a", "b"])]
    [("a", .vref 0), ("b", .vref 1)] ["a", "b"]
    (by decide) rfl rfl rfl rfl rfl rfl (by decide)

/-- C8 counterexample: with `type T = {a: string; b: number}` resolved
into the cache (schema object at address 3, properties object at 2),
deriving `Partial<T>` leaves the cached schema object — `required`
included — completely unchanged: the subsequent `resolve("T")` returns
the same address 3, whose object still carries
`required:["a","b"]`, contradicting the claim that `Partial` deletes the
cached schema's `required` so that later resolves see it gone. -/
theorem partialRef_cache_counterexample :
    resolveH declsT 1 "T" afterPartialT.1 afterPartialT.2 =
      .ok (3, afterPartialT.1, afterPartialT.2) ∧
    readObj afterPartialT.1 3 =
      some [("type", .vstr "object"), ("properties", .vref 2),
            ("required", .vlist ["a", "b"])] :=
  ⟨rfl, rfl⟩

end HeapM

end TSchema
